import Mathlib

/-!
Verification of the `pj` project-catalog engine
(`internal/catalog/yaml_catalog.go`, `internal/catalog/project.go`, and the
catalog contract) against its natural-language specification.

Shallow embedding conventions:
* Go strings are sequences of Unicode code points (runes), modelled as
  `List Nat` (`GoStr`).  For valid UTF-8 data this is faithful to the
  byte-level operations the code uses: lexicographic byte order coincides
  with code-point order, and byte-substring containment coincides with
  rune-substring containment (UTF-8 is order-preserving and
  self-synchronizing).  The case mapping models Go's Unicode simple case
  mapping exactly on ASCII and on U+017F (LATIN SMALL LETTER LONG S, whose
  upper case is the ASCII `S`); it is the identity on other code points, and
  no theorem depends on the mapping outside that fragment: the
  case-insensitivity theorem restricts its query to ASCII, and its
  counterexample uses only ASCII and U+017F.  `unicode.IsSpace` is modelled
  on its ASCII fragment.
* Go slices distinguish `nil` from an empty slice; slice-valued record fields
  are therefore modelled as `Option (List _)`, `none` standing for `nil`.
  `sl` views a slice through Go's `range`/`len` semantics, under which `nil`
  behaves as empty.
* Go maps are modelled as association lists with replace-on-insert semantics
  (`mput`), first-match lookup (`mfind`) and key deletion (`mdel`).
* The filesystem consulted by `os.Stat` during validation is a list of
  existing paths, passed explicitly.
* `time.Time` values are abstract instants, modelled as `Nat` (the code only
  compares them with `Before`/`Compare`).
-/

/-- Go string, as its byte sequence. -/
abbrev GoStr := List Nat

/-- Convenience literal: the code points of an ASCII Lean string literal. -/
def gs (s : String) : GoStr := s.toList.map Char.toNat

/-- Go's `unicode.ToLower` (simple lower-case mapping), modelled exactly on
ASCII; the code points the theorems use outside ASCII (U+017F) are their own
lower case, so the identity branch is exact there too. -/
def lowerRune (c : Nat) : Nat := if 65 ≤ c ∧ c ≤ 90 then c + 32 else c

/-- Go's `unicode.ToUpper` (simple upper-case mapping), modelled exactly on
ASCII and on U+017F (`ſ`, whose upper case is `S`); identity on the remaining
code points, on which no theorem depends. -/
def upperRune (c : Nat) : Nat :=
  if 97 ≤ c ∧ c ≤ 122 then c - 32 else if c = 383 then 83 else c

/-- Model of `strings.ToLower`. -/
def toLowerStr (s : GoStr) : GoStr := s.map lowerRune

/-- Model of `strings.ToUpper`. -/
def toUpperStr (s : GoStr) : GoStr := s.map upperRune

/-- Lexicographic order on Go strings (Go's `<` / `strings.Compare`, which
compare bytes; on valid UTF-8, byte order equals code-point order). -/
def ltStr : GoStr → GoStr → Bool
  | [], [] => false
  | [], _ :: _ => true
  | _ :: _, [] => false
  | a :: as, b :: bs => if a < b then true else if b < a then false else ltStr as bs

/-- ASCII fragment of `unicode.IsSpace` (space, TAB, LF, VT, FF, CR). -/
def isSpaceByte (c : Nat) : Bool := c == 32 || c == 9 || c == 10 || c == 11 || c == 12 || c == 13

/-- Model of `strings.TrimSpace`: drop leading, then trailing, whitespace. -/
def trimSpace (s : GoStr) : GoStr :=
  ((s.dropWhile isSpaceByte).reverse.dropWhile isSpaceByte).reverse

/-- Model of `strings.HasPrefix` (used to define substring containment). -/
def hasPrefixStr : GoStr → GoStr → Bool
  | [], _ => true
  | _ :: _, [] => false
  | a :: as, b :: bs => a == b && hasPrefixStr as bs

/-- Model of `strings.Contains`: `needle` occurs somewhere in `hay`. -/
def containsStr (hay needle : GoStr) : Bool :=
  hasPrefixStr needle hay ||
    match hay with
    | [] => false
    | _ :: t => containsStr t needle

/-! Go map model: association lists, replace-on-insert, first-match lookup. -/

/-- Lookup (`m[k]`): value of the first binding with key `k`, if any. -/
def mfind {β : Type} (m : List (GoStr × β)) (k : GoStr) : Option β :=
  match m with
  | [] => none
  | (k', v) :: t => if k' = k then some v else mfind t k

/-- Insert (`m[k] = v`): replace the existing binding, or append a new one. -/
def mput {β : Type} (m : List (GoStr × β)) (k : GoStr) (v : β) : List (GoStr × β) :=
  match m with
  | [] => [(k, v)]
  | (k', v') :: t => if k' = k then (k, v) :: t else (k', v') :: mput t k v

/-- Delete (`delete(m, k)`): remove the binding with key `k`, if any. -/
def mdel {β : Type} (m : List (GoStr × β)) (k : GoStr) : List (GoStr × β) :=
  match m with
  | [] => []
  | (k', v') :: t => if k' = k then t else (k', v') :: mdel t k

/-! The Project record (`internal/catalog/project.go`, revision with
types/tags/status) and its validation. -/

/-- View a Go slice through `range`/`len` semantics (`nil` behaves as empty). -/
def sl {α : Type} (o : Option (List α)) : List α := o.getD []

/-- One tracked project record. -/
structure Project where
  ID : GoStr
  Name : GoStr
  Path : GoStr
  Types : Option (List GoStr)
  Tags : Option (List GoStr)
  Status : GoStr
  Notes : GoStr
  AddedAt : Nat
  LastAccessed : Nat
  GitRemote : GoStr
  Description : GoStr
deriving DecidableEq, Repr

/-- `Status` constant `StatusActive`. -/
def StatusActive : GoStr := gs "active"

/-- `Status` constant `StatusArchived`. -/
def StatusArchived : GoStr := gs "archived"

/-- `Status` constant `StatusAbandoned`. -/
def StatusAbandoned : GoStr := gs "abandoned"

/-- Errors returned by the catalog engine and record validation. -/
inductive CatalogErr where
  | emptyName
  | relativePath
  | pathNotExist
  | invalidStatus
  | notFound
  | alreadyExists
deriving DecidableEq, Repr

/-- `NewProject`: id generation (`uuid.New`) and the clock (`time.Now`) are
passed as parameters.  Fields absent from the Go struct literal take their
zero values; in particular `Tags` is left `nil`. -/
def NewProject (id : GoStr) (now : Nat) (name path : GoStr) : Project :=
  { ID := id
    Name := name
    Path := path
    Types := some []
    Tags := none
    Status := StatusActive
    Notes := []
    AddedAt := now
    LastAccessed := now
    GitRemote := []
    Description := [] }

/-- `Project.HasType`: membership in the `Types` slice. -/
def Project.HasType (p : Project) (t : GoStr) : Bool := (sl p.Types).contains t

/-- `Project.HasTag`: membership in the `Tags` slice. -/
def Project.HasTag (p : Project) (t : GoStr) : Bool := (sl p.Tags).contains t

/-- `isValidStatus`. -/
def isValidStatus (s : GoStr) : Bool :=
  s == StatusActive || s == StatusArchived || s == StatusAbandoned

/-- `filepath.IsAbs` (Unix): nonempty and starting with a slash. -/
def isAbsPath (s : GoStr) : Bool :=
  match s with
  | [] => false
  | c :: _ => c == 47

/-- The tag-cleaning loop of `ValidateAndNormalize`: keep the trimmed form of
each tag that is nonempty after trimming, preserving order. -/
def cleanTags (l : List GoStr) : List GoStr :=
  l.filterMap (fun tag =>
    let trimmed := trimSpace tag
    if trimmed ≠ [] then some trimmed else none)

/-- `Project.ValidateAndNormalize`.  `fs` is the set of paths that exist on the
filesystem (the `os.Stat` oracle); stat failures other than non-existence are
outside the model. -/
def Project.ValidateAndNormalize (p : Project) (fs : List GoStr) :
    Except CatalogErr Project :=
  if trimSpace p.Name = [] then
    .error .emptyName
  else if ¬ (isAbsPath p.Path = true) then
    .error .relativePath
  else if ¬ (fs.contains p.Path = true) then
    .error .pathNotExist
  else if p.Status ≠ [] ∧ isValidStatus p.Status = false then
    .error .invalidStatus
  else
    .ok { p with Tags := some (cleanTags (sl p.Tags)) }

/-! The engine state (`YAMLCatalog`) and its operations.  The `sync.RWMutex`
serialises operations; each public method is modelled as a function from the
pre-state to `(returned error, post-state)`. -/

/-- In-memory engine state: primary index `projects` (id → record) and
secondary index `byPath` (path → id). -/
structure YAMLCatalog where
  projects : List (GoStr × Project)
  byPath : List (GoStr × GoStr)
deriving DecidableEq, Repr

/-- `NewYAMLCatalog` (directory creation aside): both indices empty. -/
def emptyCatalog : YAMLCatalog := { projects := [], byPath := [] }

/-- The on-disk root object. -/
structure CatalogFile where
  Version : Nat
  Projects : List Project
deriving DecidableEq, Repr

/-- What `os.ReadFile` + `yaml.Unmarshal` produced for `Load`: the file was
absent, or it parsed into a `CatalogFile`.  (A parse failure returns a wrapped
error and touches nothing; it is not needed by the claims.) -/
inductive DiskFile where
  | missing
  | parsed (f : CatalogFile)

/-- `Add`. -/
def YAMLCatalog.Add (c : YAMLCatalog) (fs : List GoStr) (p : Project) :
    Option CatalogErr × YAMLCatalog :=
  match p.ValidateAndNormalize fs with
  | .error e => (some e, c)
  | .ok p' =>
    if (mfind c.byPath p'.Path).isSome then
      (some .alreadyExists, c)
    else
      (none, { c with projects := mput c.projects p'.ID p',
                      byPath := mput c.byPath p'.Path p'.ID })

/-- `Get`. -/
def YAMLCatalog.Get (c : YAMLCatalog) (id : GoStr) : Except CatalogErr Project :=
  match mfind c.projects id with
  | none => .error .notFound
  | some p => .ok p

/-- The zero `Project` value (returned by a missed Go map access). -/
def zeroProject : Project :=
  { ID := [], Name := [], Path := [], Types := none, Tags := none, Status := [],
    Notes := [], AddedAt := 0, LastAccessed := 0, GitRemote := [], Description := [] }

/-- `GetByPath`: path-index lookup, then (unchecked) primary lookup. -/
def YAMLCatalog.GetByPath (c : YAMLCatalog) (path : GoStr) : Except CatalogErr Project :=
  match mfind c.byPath path with
  | none => .error .notFound
  | some id => .ok ((mfind c.projects id).getD zeroProject)

/-- `Update`. -/
def YAMLCatalog.Update (c : YAMLCatalog) (fs : List GoStr) (p : Project) :
    Option CatalogErr × YAMLCatalog :=
  match p.ValidateAndNormalize fs with
  | .error e => (some e, c)
  | .ok p' =>
    match mfind c.projects p'.ID with
    | none => (some .notFound, c)
    | some existing =>
      if existing.Path = p'.Path then
        (none, { c with projects := mput c.projects p'.ID p' })
      else
        match mfind c.byPath p'.Path with
        | some existingID =>
          if existingID = p'.ID then
            (none, { c with byPath := mput (mdel c.byPath existing.Path) p'.Path p'.ID,
                            projects := mput c.projects p'.ID p' })
          else
            (some .alreadyExists, c)
        | none =>
          (none, { c with byPath := mput (mdel c.byPath existing.Path) p'.Path p'.ID,
                          projects := mput c.projects p'.ID p' })

/-- `Remove`: deletes from both indices, using the stored record's path. -/
def YAMLCatalog.Remove (c : YAMLCatalog) (id : GoStr) :
    Option CatalogErr × YAMLCatalog :=
  match mfind c.projects id with
  | none => (some .notFound, c)
  | some p =>
    (none, { c with projects := mdel c.projects id, byPath := mdel c.byPath p.Path })

/-- `List`: the records of the primary index. -/
def YAMLCatalog.ListProjects (c : YAMLCatalog) : List Project :=
  c.projects.map Prod.snd

/-- `Count`: size of the primary index. -/
def YAMLCatalog.Count (c : YAMLCatalog) : Nat := c.projects.length

/-- `matchesQuery`: case-insensitive substring match against name, path and
each tag (the query is already lower-cased by the caller). -/
def matchesQuery (p : Project) (query : GoStr) : Bool :=
  containsStr (toLowerStr p.Name) query ||
  containsStr (toLowerStr p.Path) query ||
  (sl p.Tags).any (fun tag => containsStr (toLowerStr tag) query)

/-- `Search`. -/
def YAMLCatalog.Search (c : YAMLCatalog) (query : GoStr) : List Project :=
  if query = [] then
    c.ListProjects
  else
    c.ListProjects.filter (fun p => matchesQuery p (toLowerStr query))

/-- `SortField` constant `SortByName`. -/
def SortByName : GoStr := gs "name"

/-- `SortField` constant `SortByPath`. -/
def SortByPath : GoStr := gs "path"

/-- `SortField` constant `SortByLastAccessed`. -/
def SortByLastAccessed : GoStr := gs "last_accessed"

/-- `SortField` constant `SortByAddedAt`. -/
def SortByAddedAt : GoStr := gs "added_at"

/-- `SortField` constant `SortByTypes`. -/
def SortByTypes : GoStr := gs "types"

/-- `FilterOptions`. -/
structure FilterOptions where
  Status : GoStr
  Types : List GoStr
  Tags : List GoStr
  Query : GoStr
  SortBy : GoStr
  Descending : Bool
deriving DecidableEq, Repr

/-- `matchesFilter`: status equality, types any-of, tags all-of, then the
search query. -/
def matchesFilter (p : Project) (opts : FilterOptions) : Bool :=
  (opts.Status.isEmpty || p.Status == opts.Status) &&
  (opts.Types.isEmpty || opts.Types.any p.HasType) &&
  (opts.Tags.all p.HasTag) &&
  (opts.Query.isEmpty || matchesQuery p (toLowerStr opts.Query))

/-- Boolean strict order on `Nat` (for the `time.Time.Before` comparisons). -/
def natLt (a b : Nat) : Bool := decide (a < b)

/-- Shared tail of `compareProjects`: the per-field `less, equal` pair is
followed by `if equal { return a.ID < b.ID }; return less`. -/
def cmpWithID {κ : Type} [DecidableEq κ] (klt : κ → κ → Bool) (ka kb : κ) (ia ib : GoStr) : Bool :=
  if ka = kb then ltStr ia ib else klt ka kb

/-- `compareProjects`: `less` on the selected field with the deterministic ID
tie-break.  The `default` arm covers `SortByName` and any unknown field. -/
def compareProjects (a b : Project) (sf : GoStr) : Bool :=
  if sf = SortByPath then
    cmpWithID ltStr a.Path b.Path a.ID b.ID
  else if sf = SortByLastAccessed then
    cmpWithID natLt a.LastAccessed b.LastAccessed a.ID b.ID
  else if sf = SortByAddedAt then
    cmpWithID natLt a.AddedAt b.AddedAt a.ID b.ID
  else if sf = SortByTypes then
    cmpWithID ltStr ((sl a.Types).headD []) ((sl b.Types).headD []) a.ID b.ID
  else
    cmpWithID ltStr (toLowerStr a.Name) (toLowerStr b.Name) a.ID b.ID

/-- Stable insertion used to model `sort.SliceStable`: an element is placed
after every already-placed element that compares strictly less than it. -/
def insertStable {α : Type} (less : α → α → Bool) (x : α) : List α → List α
  | [] => [x]
  | y :: ys => if less y x then y :: insertStable less x ys else x :: y :: ys

/-- Model of `sort.SliceStable`: a stable sort with respect to `less`. -/
def sortSliceStable {α : Type} (less : α → α → Bool) : List α → List α
  | [] => []
  | x :: xs => insertStable less x (sortSliceStable less xs)

/-- The comparison closure passed by `sortProjects` to `sort.SliceStable`:
empty field defaults to `SortByName`; the descending flag negates the
comparison. -/
def projLess (sf : GoStr) (descending : Bool) (a b : Project) : Bool :=
  let less := compareProjects a b (if sf = [] then SortByName else sf)
  if descending then !less else less

/-- `sortProjects`. -/
def sortProjects (l : List Project) (sf : GoStr) (descending : Bool) : List Project :=
  sortSliceStable (projLess sf descending) l

/-- `Filter`: select by `matchesFilter`, then sort. -/
def YAMLCatalog.Filter (c : YAMLCatalog) (opts : FilterOptions) : List Project :=
  sortProjects (c.ListProjects.filter (fun p => matchesFilter p opts))
    opts.SortBy opts.Descending

/-- `Save` (up to the yaml encoding and the atomic temp-file rename, which the
external library and OS provide): the written `CatalogFile` value, records
sorted stably by name. -/
def YAMLCatalog.Save (c : YAMLCatalog) : CatalogFile :=
  { Version := 1
    Projects := sortSliceStable (fun a b => ltStr a.Name b.Name) c.ListProjects }

/-- `Load`, from the read-and-parse result onward: a missing file returns `nil`
(leaving the indices untouched); a parsed file rebuilds both indices from
scratch from the parsed record list. -/
def YAMLCatalog.Load (c : YAMLCatalog) (file : DiskFile) :
    Option CatalogErr × YAMLCatalog :=
  match file with
  | .missing => (none, c)
  | .parsed f =>
    (none, { c with
      projects := f.Projects.foldl (fun m p => mput m p.ID p) [],
      byPath := f.Projects.foldl (fun m p => mput m p.Path p.ID) [] })

/-! Decidable equality for `Except` results, and concrete sample data used by
witness theorems. -/

instance {ε α : Type} [DecidableEq ε] [DecidableEq α] : DecidableEq (Except ε α) := fun x y =>
  match x, y with
  | .ok a, .ok b =>
    if h : a = b then .isTrue (by rw [h]) else .isFalse (by intro hc; cases hc; exact h rfl)
  | .error a, .error b =>
    if h : a = b then .isTrue (by rw [h]) else .isFalse (by intro hc; cases hc; exact h rfl)
  | .ok _, .error _ => .isFalse (by intro hc; cases hc)
  | .error _, .ok _ => .isFalse (by intro hc; cases hc)

/-- Filesystem oracle for the sample data: these paths exist. -/
def fsW : List GoStr := [gs "/a", gs "/b", gs "/c", gs "/d"]

/-- Sample record at `/a`. -/
def recA : Project :=
  { ID := gs "ida", Name := gs "Alpha", Path := gs "/a", Types := some [],
    Tags := some [], Status := StatusActive, Notes := [], AddedAt := 1,
    LastAccessed := 1, GitRemote := [], Description := [] }

/-- Sample record at `/b`. -/
def recB : Project :=
  { ID := gs "idb", Name := gs "beta", Path := gs "/b", Types := some [],
    Tags := some [gs "web"], Status := StatusArchived, Notes := [], AddedAt := 2,
    LastAccessed := 2, GitRemote := [], Description := [] }

/-- Sample record at `/c`, name tying with `recA` case-insensitively. -/
def recC : Project :=
  { ID := gs "idc", Name := gs "alpha", Path := gs "/c", Types := some [gs "go"],
    Tags := some [], Status := StatusActive, Notes := [], AddedAt := 3,
    LastAccessed := 3, GitRemote := [], Description := [] }

/-- Folding `Add` over a list of records (the "add N valid records" setup of
the persistence round-trip). -/
def addSeq (c : YAMLCatalog) (fs : List GoStr) (rs : List Project) : YAMLCatalog :=
  rs.foldl (fun c r => (c.Add fs r).2) c

/-- Sample record at `/u` whose name starts with U+017F (`ſ`), a lower-case
code point whose upper case is the ASCII `S`. -/
def recUni : Project :=
  { ID := gs "idu", Name := [383, 120], Path := gs "/u", Types := some [],
    Tags := some [], Status := StatusActive, Notes := [], AddedAt := 4,
    LastAccessed := 4, GitRemote := [], Description := [] }

/-- Witness catalog: `recA`, `recB`, `recC` added in order. -/
def cW : YAMLCatalog := (((emptyCatalog.Add fsW recA).2.Add fsW recB).2.Add fsW recC).2

/-- Witness filter options (all zero values: no filtering, default sort). -/
def optsW : FilterOptions :=
  { Status := [], Types := [], Tags := [], Query := [], SortBy := [], Descending := false }

/-- The yaml marshal/unmarshal round trip of a slice field carrying
`omitempty` (the struct tags `yaml:"types,omitempty"` / `yaml:"tags,omitempty"`):
a slice of length zero — nil or empty — is omitted when marshalling, and the
absent key unmarshals back to nil; a nonempty slice round-trips exactly. -/
def yamlOmitEmptySlice {α : Type} (o : Option (List α)) : Option (List α) :=
  match o with
  | some (x :: xs) => some (x :: xs)
  | _ => none

/-- The yaml round trip of one record, as determined by the struct's yaml
tags: `Types` and `Tags` lose the empty-versus-nil distinction; every other
field round-trips exactly. -/
def yamlRoundTrip (p : Project) : Project :=
  { p with Types := yamlOmitEmptySlice p.Types, Tags := yamlOmitEmptySlice p.Tags }

/-- What `Load`'s parser receives for a file written by `Save`: the saved
`CatalogFile` with every record passed through the yaml round trip. -/
def yamlReload (f : CatalogFile) : CatalogFile :=
  { Version := f.Version, Projects := f.Projects.map yamlRoundTrip }

/-- Record equality up to identifying nil and empty slice containers; all
other fields must be exactly equal. -/
def projEquateEmpty (a b : Project) : Prop :=
  a.ID = b.ID ∧ a.Name = b.Name ∧ a.Path = b.Path ∧ sl a.Types = sl b.Types ∧
  sl a.Tags = sl b.Tags ∧ a.Status = b.Status ∧ a.Notes = b.Notes ∧
  a.AddedAt = b.AddedAt ∧ a.LastAccessed = b.LastAccessed ∧
  a.GitRemote = b.GitRemote ∧ a.Description = b.Description

/-! Engine invariant and reachability. -/

/-- Structural consistency of the two indices: primary entries are keyed by
their record id, the secondary index maps every stored record's path back to
its id, and both key sets are duplicate-free. -/
structure IndexInv (c : YAMLCatalog) : Prop where
  keyed : ∀ e ∈ c.projects, e.2.ID = e.1
  pathIdx : ∀ e ∈ c.projects, mfind c.byPath e.2.Path = some e.1
  idKeysNodup : (c.projects.map Prod.fst).Nodup
  pathKeysNodup : (c.byPath.map Prod.fst).Nodup

/-- States reachable through the engine's mutating operations, with `Load`
admitting any successfully parsed file (the read-only operations and `Save` do
not change the state).  This is the reachability relation of claim C1 as
stated. -/
inductive Reachable : YAMLCatalog → Prop where
  | init : Reachable emptyCatalog
  | add (fs : List GoStr) (p : Project) {c : YAMLCatalog} :
      Reachable c → Reachable (c.Add fs p).2
  | update (fs : List GoStr) (p : Project) {c : YAMLCatalog} :
      Reachable c → Reachable (c.Update fs p).2
  | remove (id : GoStr) {c : YAMLCatalog} :
      Reachable c → Reachable (c.Remove id).2
  | load (file : DiskFile) {c : YAMLCatalog} :
      Reachable c → Reachable (c.Load file).2

/-- Reachability with `Load` restricted to parsed files whose records carry
pairwise-distinct paths (the amended form of claim C1). -/
inductive ReachableD : YAMLCatalog → Prop where
  | init : ReachableD emptyCatalog
  | add (fs : List GoStr) (p : Project) {c : YAMLCatalog} :
      ReachableD c → ReachableD (c.Add fs p).2
  | update (fs : List GoStr) (p : Project) {c : YAMLCatalog} :
      ReachableD c → ReachableD (c.Update fs p).2
  | remove (id : GoStr) {c : YAMLCatalog} :
      ReachableD c → ReachableD (c.Remove id).2
  | loadMissing {c : YAMLCatalog} :
      ReachableD c → ReachableD (c.Load .missing).2
  | loadParsed (f : CatalogFile) {c : YAMLCatalog} :
      ReachableD c →
      f.Projects.Pairwise (fun a b => a.Path ≠ b.Path) →
      ReachableD (c.Load (.parsed f)).2

/-! Helper theorems. -/

theorem lowerRune_upperRune_ascii (c : Nat) (h : c < 128) :
    lowerRune (upperRune c) = lowerRune c := by
  simp only [lowerRune, upperRune]
  by_cases h1 : 97 ≤ c ∧ c ≤ 122
  · rw [if_pos h1, if_pos (by omega : 65 ≤ c - 32 ∧ c - 32 ≤ 90),
      if_neg (by omega : ¬(65 ≤ c ∧ c ≤ 90))]
    omega
  · rw [if_neg h1, if_neg (by omega : ¬ c = 383)]

theorem toLowerStr_toUpperStr_ascii (s : GoStr) (h : ∀ ch ∈ s, ch < 128) :
    toLowerStr (toUpperStr s) = toLowerStr s := by
  unfold toLowerStr toUpperStr
  rw [List.map_map]
  exact List.map_congr_left (fun c hc => lowerRune_upperRune_ascii c (h c hc))

theorem ltStr_cons_iff (x y : Nat) (xs ys : GoStr) :
    ltStr (x :: xs) (y :: ys) = true ↔ x < y ∨ (x = y ∧ ltStr xs ys = true) := by
  simp only [ltStr]
  by_cases hxy : x < y
  · simp [hxy]
  · by_cases hyx : y < x
    · simp [hxy, hyx]
      omega
    · have hxe : x = y := by omega
      simp [hxy, hyx, hxe]

theorem ltStr_asymm : ∀ (a b : GoStr), ltStr a b = true → ltStr b a = false := by
  intro a
  induction a with
  | nil =>
    intro b h
    cases b with
    | nil => simp [ltStr] at h
    | cons y ys => simp [ltStr]
  | cons x xs ih =>
    intro b h
    cases b with
    | nil => simp [ltStr] at h
    | cons y ys =>
      rw [ltStr_cons_iff] at h
      rw [Bool.eq_false_iff]
      intro hc
      rw [ltStr_cons_iff] at hc
      rcases h with h | ⟨he, h⟩
      · rcases hc with hc | ⟨hce, _⟩ <;> omega
      · rcases hc with hc | ⟨hce, hc⟩
        · omega
        · have hf := ih ys h
          simp [hf] at hc

theorem ltStr_trans : ∀ (a b c : GoStr), ltStr a b = true → ltStr b c = true →
    ltStr a c = true := by
  intro a
  induction a with
  | nil =>
    intro b c h1 h2
    cases c with
    | nil =>
      cases b with
      | nil => simp [ltStr] at h1
      | cons y ys => simp [ltStr] at h2
    | cons z zs => simp [ltStr]
  | cons x xs ih =>
    intro b c h1 h2
    cases b with
    | nil => simp [ltStr] at h1
    | cons y ys =>
      cases c with
      | nil => simp [ltStr] at h2
      | cons z zs =>
        rw [ltStr_cons_iff] at h1 h2 ⊢
        rcases h1 with h1 | ⟨e1, h1⟩ <;> rcases h2 with h2 | ⟨e2, h2⟩
        · left; omega
        · left; omega
        · left; omega
        · right; exact ⟨by omega, ih ys zs h1 h2⟩

theorem ltStr_conn : ∀ (a b : GoStr), ltStr a b = false → ltStr b a = false → a = b := by
  intro a
  induction a with
  | nil =>
    intro b h1 _
    cases b with
    | nil => rfl
    | cons y ys => simp [ltStr] at h1
  | cons x xs ih =>
    intro b h1 h2
    cases b with
    | nil => simp [ltStr] at h2
    | cons y ys =>
      rw [Bool.eq_false_iff] at h1 h2
      have hx : x = y := by
        by_contra hne
        rcases Nat.lt_or_ge x y with h | h
        · exact h1 (by rw [ltStr_cons_iff]; left; exact h)
        · have hyx : y < x := by omega
          exact h2 (by rw [ltStr_cons_iff]; left; exact hyx)
      subst hx
      have e1 : ltStr xs ys = false := by
        cases hxy : ltStr xs ys
        · rfl
        · exact absurd (by rw [ltStr_cons_iff]; right; exact ⟨rfl, hxy⟩) h1
      have e2 : ltStr ys xs = false := by
        cases hyx : ltStr ys xs
        · rfl
        · exact absurd (by rw [ltStr_cons_iff]; right; exact ⟨rfl, hyx⟩) h2
      rw [ih ys e1 e2]

theorem ltStr_irrefl (a : GoStr) : ltStr a a = false := by
  cases h : ltStr a a
  · rfl
  · have hf := ltStr_asymm a a h
    rw [hf] at h
    exact h.symm

theorem dropWhile_self_idem (p : Nat → Bool) (l : GoStr) :
    (l.dropWhile p).dropWhile p = l.dropWhile p := by
  induction l with
  | nil => rfl
  | cons x xs ih =>
    by_cases h : p x
    · simp [List.dropWhile_cons, h, ih]
    · simp [List.dropWhile_cons, h]

theorem head_dropWhile_false (p : Nat → Bool) :
    ∀ (l : GoStr) x xs, l.dropWhile p = x :: xs → p x = false := by
  intro l
  induction l with
  | nil =>
    intro x xs h
    simp at h
  | cons y ys ih =>
    intro x xs h
    by_cases hy : p y
    · rw [List.dropWhile_cons, if_pos hy] at h
      exact ih x xs h
    · rw [List.dropWhile_cons, if_neg hy] at h
      cases h
      simp [hy]

theorem dropWhile_eq_self_of_head (p : Nat → Bool) (l : GoStr)
    (h : ∀ x xs, l = x :: xs → p x = false) : l.dropWhile p = l := by
  cases l with
  | nil => rfl
  | cons x xs => rw [List.dropWhile_cons, if_neg (by simp [h x xs rfl])]

theorem getLast_of_suffix {l w : GoStr} (h : l <:+ w) (hne : l ≠ []) :
    w.getLast? = l.getLast? := by
  obtain ⟨u, rfl⟩ := h
  exact List.getLast?_append_of_ne_nil u hne

theorem dropWhile_rev_dropWhile (p : Nat → Bool) (d : GoStr)
    (hhead : ∀ x xs, d = x :: xs → p x = false) :
    ((d.reverse.dropWhile p).reverse).dropWhile p = (d.reverse.dropWhile p).reverse := by
  apply dropWhile_eq_self_of_head
  intro x xs hx
  cases hdd : d with
  | nil =>
    subst hdd
    simp at hx
  | cons a as =>
    have ha : p a = false := hhead a as hdd
    have hzn : d.reverse.dropWhile p ≠ [] := by
      intro hnil
      rw [hnil] at hx
      simp at hx
    have hsuf : d.reverse.dropWhile p <:+ d.reverse := List.dropWhile_suffix p
    have hlast : d.reverse.getLast? = (d.reverse.dropWhile p).getLast? :=
      getLast_of_suffix hsuf hzn
    have hrev : d.reverse.getLast? = some a := by
      rw [List.getLast?_reverse, hdd]
      rfl
    have hhd : ((d.reverse.dropWhile p).reverse).head? = some a := by
      rw [List.head?_reverse, ← hlast, hrev]
    rw [hx] at hhd
    simp at hhd
    rw [hhd]
    exact ha

theorem trimSpace_idem (s : GoStr) : trimSpace (trimSpace s) = trimSpace s := by
  unfold trimSpace
  rw [dropWhile_rev_dropWhile isSpaceByte (s.dropWhile isSpaceByte)
      (fun x xs h => head_dropWhile_false isSpaceByte s x xs h)]
  rw [List.reverse_reverse, dropWhile_self_idem]

theorem mfind_mput_self {β : Type} (m : List (GoStr × β)) (k : GoStr) (v : β) :
    mfind (mput m k v) k = some v := by
  induction m with
  | nil => simp [mput, mfind]
  | cons e t ih =>
    obtain ⟨k', v'⟩ := e
    by_cases h : k' = k
    · simp [mput, h, mfind]
    · simp [mput, h, mfind, ih]

theorem mfind_mput_ne {β : Type} (m : List (GoStr × β)) (k k' : GoStr) (v : β)
    (h : k ≠ k') : mfind (mput m k v) k' = mfind m k' := by
  induction m with
  | nil => simp [mput, mfind, h]
  | cons e t ih =>
    obtain ⟨k0, v0⟩ := e
    by_cases h0 : k0 = k
    · subst h0
      simp [mput, mfind, h]
    · simp [mput, h0, mfind, ih]

theorem length_mput {β : Type} (m : List (GoStr × β)) (k : GoStr) (v : β) :
    (mput m k v).length = if (mfind m k).isSome then m.length else m.length + 1 := by
  induction m with
  | nil => simp [mput, mfind]
  | cons e t ih =>
    obtain ⟨k0, v0⟩ := e
    by_cases h0 : k0 = k
    · simp [mput, h0, mfind]
    · simp only [mput, if_neg h0, mfind, List.length_cons, ih]
      by_cases hs : (mfind t k).isSome
      · simp [hs]
      · simp [hs]

theorem mput_of_absent {β : Type} (m : List (GoStr × β)) (k : GoStr) (v : β)
    (h : mfind m k = none) : mput m k v = m ++ [(k, v)] := by
  induction m with
  | nil => simp [mput]
  | cons e t ih =>
    obtain ⟨k0, v0⟩ := e
    by_cases h0 : k0 = k
    · simp [mfind, h0] at h
    · simp only [mfind, if_neg h0] at h
      simp [mput, h0, ih h]

theorem mfind_mdel_ne {β : Type} (m : List (GoStr × β)) (k k' : GoStr)
    (h : k ≠ k') : mfind (mdel m k) k' = mfind m k' := by
  induction m with
  | nil => simp [mdel]
  | cons e t ih =>
    obtain ⟨k0, v0⟩ := e
    by_cases h0 : k0 = k
    · subst h0
      simp [mdel, mfind, h]
    · simp [mdel, h0, mfind, ih]

theorem length_mdel_present {β : Type} (m : List (GoStr × β)) (k : GoStr)
    (h : (mfind m k).isSome) : (mdel m k).length + 1 = m.length := by
  induction m with
  | nil => simp [mfind] at h
  | cons e t ih =>
    obtain ⟨k0, v0⟩ := e
    by_cases h0 : k0 = k
    · simp [mdel, h0]
    · simp only [mfind, if_neg h0] at h
      simp [mdel, h0, ih h]

theorem mdel_of_absent {β : Type} (m : List (GoStr × β)) (k : GoStr)
    (h : mfind m k = none) : mdel m k = m := by
  induction m with
  | nil => rfl
  | cons e t ih =>
    obtain ⟨k0, v0⟩ := e
    by_cases h0 : k0 = k
    · simp [mfind, h0] at h
    · simp only [mfind, if_neg h0] at h
      simp [mdel, h0, ih h]

theorem mfind_mem {β : Type} {m : List (GoStr × β)} {k : GoStr} {v : β}
    (h : mfind m k = some v) : (k, v) ∈ m := by
  induction m with
  | nil => simp [mfind] at h
  | cons e t ih =>
    obtain ⟨k0, v0⟩ := e
    by_cases h0 : k0 = k
    · subst h0
      simp [mfind] at h
      simp [h]
    · simp only [mfind, if_neg h0] at h
      exact List.mem_cons_of_mem _ (ih h)

theorem keys_mput_subset {β : Type} (m : List (GoStr × β)) (k : GoStr) (v : β) :
    ∀ x ∈ (mput m k v).map Prod.fst, x ∈ m.map Prod.fst ∨ x = k := by
  induction m with
  | nil =>
    intro x hx
    simp [mput] at hx
    simp [hx]
  | cons e t ih =>
    obtain ⟨k0, v0⟩ := e
    intro x hx
    by_cases h0 : k0 = k
    · rw [mput, if_pos h0] at hx
      simp only [List.map_cons, List.mem_cons] at hx
      rcases hx with h1 | h1
      · right; exact h1
      · left; simp [h1]
    · rw [mput, if_neg h0] at hx
      simp only [List.map_cons, List.mem_cons] at hx
      rcases hx with h1 | h1
      · left; simp [h1]
      · rcases ih x h1 with hh | hh
        · left; simp [hh]
        · right; exact hh

theorem keys_mdel_subset {β : Type} (m : List (GoStr × β)) (k : GoStr) :
    ∀ x ∈ (mdel m k).map Prod.fst, x ∈ m.map Prod.fst := by
  induction m with
  | nil =>
    intro x hx
    simp [mdel] at hx
  | cons e t ih =>
    obtain ⟨k0, v0⟩ := e
    intro x hx
    by_cases h0 : k0 = k
    · rw [mdel, if_pos h0] at hx
      simp [hx]
    · rw [mdel, if_neg h0] at hx
      simp only [List.map_cons, List.mem_cons] at hx
      rcases hx with h1 | h1
      · simp [h1]
      · simp [ih x h1]

theorem keysNodup_mput {β : Type} (m : List (GoStr × β)) (k : GoStr) (v : β)
    (h : (m.map Prod.fst).Nodup) : ((mput m k v).map Prod.fst).Nodup := by
  induction m with
  | nil => simp [mput]
  | cons e t ih =>
    obtain ⟨k0, v0⟩ := e
    simp only [List.map_cons, List.nodup_cons] at h
    by_cases h0 : k0 = k
    · subst h0
      simpa [mput] using h
    · simp only [mput, if_neg h0, List.map_cons, List.nodup_cons]
      refine ⟨fun hmem => ?_, ih h.2⟩
      rcases keys_mput_subset t k v k0 hmem with hh | hh
      · exact h.1 hh
      · exact h0 hh

theorem keysNodup_mdel {β : Type} (m : List (GoStr × β)) (k : GoStr)
    (h : (m.map Prod.fst).Nodup) : ((mdel m k).map Prod.fst).Nodup := by
  induction m with
  | nil => simp [mdel]
  | cons e t ih =>
    obtain ⟨k0, v0⟩ := e
    simp only [List.map_cons, List.nodup_cons] at h
    by_cases h0 : k0 = k
    · simpa [mdel, h0] using h.2
    · simp only [mdel, if_neg h0, List.map_cons, List.nodup_cons]
      exact ⟨fun hmem => h.1 (keys_mdel_subset t k k0 hmem), ih h.2⟩

theorem mem_mput_iff {β : Type} (m : List (GoStr × β)) (k : GoStr) (v : β) (e : GoStr × β)
    (h : (m.map Prod.fst).Nodup) :
    e ∈ mput m k v ↔ e = (k, v) ∨ (e ∈ m ∧ e.1 ≠ k) := by
  induction m with
  | nil => simp [mput]
  | cons e0 t ih =>
    obtain ⟨k0, v0⟩ := e0
    simp only [List.map_cons, List.nodup_cons] at h
    by_cases h0 : k0 = k
    · rw [mput, if_pos h0]
      constructor
      · intro hmem
        rcases List.mem_cons.mp hmem with h1 | h1
        · left; exact h1
        · right
          refine ⟨List.mem_cons_of_mem _ h1, fun hk => ?_⟩
          apply h.1
          rw [h0, ← hk]
          exact List.mem_map_of_mem Prod.fst h1
      · intro hmem
        rcases hmem with h1 | ⟨h1, hne⟩
        · exact h1 ▸ List.mem_cons_self _ _
        · rcases List.mem_cons.mp h1 with h2 | h2
          · exact absurd (by rw [h2, h0]) hne
          · exact List.mem_cons_of_mem _ h2
    · rw [mput, if_neg h0]
      constructor
      · intro hmem
        rcases List.mem_cons.mp hmem with h1 | h1
        · right
          refine ⟨h1 ▸ List.mem_cons_self _ _, ?_⟩
          rw [h1]
          exact h0
        · rcases (ih h.2).mp h1 with h2 | ⟨h2, hne⟩
          · left; exact h2
          · right; exact ⟨List.mem_cons_of_mem _ h2, hne⟩
      · intro hmem
        rcases hmem with h1 | ⟨h1, hne⟩
        · exact List.mem_cons_of_mem _ ((ih h.2).mpr (Or.inl h1))
        · rcases List.mem_cons.mp h1 with h2 | h2
          · exact h2 ▸ List.mem_cons_self _ _
          · exact List.mem_cons_of_mem _ ((ih h.2).mpr (Or.inr ⟨h2, hne⟩))

theorem mem_mdel_subset {β : Type} {m : List (GoStr × β)} {k : GoStr} {e : GoStr × β}
    (h : e ∈ mdel m k) : e ∈ m := by
  induction m with
  | nil => simp [mdel] at h
  | cons e0 t ih =>
    obtain ⟨k0, v0⟩ := e0
    by_cases h0 : k0 = k
    · simp only [mdel, if_pos h0] at h
      exact List.mem_cons_of_mem _ h
    · simp only [mdel, if_neg h0, List.mem_cons] at h
      rcases h with rfl | h
      · exact List.mem_cons_self _ _
      · exact List.mem_cons_of_mem _ (ih h)

theorem vn_ok_iff (p : Project) (fs : List GoStr) (p' : Project) :
    p.ValidateAndNormalize fs = .ok p' ↔
      trimSpace p.Name ≠ [] ∧ isAbsPath p.Path = true ∧ fs.contains p.Path = true ∧
      ¬(p.Status ≠ [] ∧ isValidStatus p.Status = false) ∧
      p' = { p with Tags := some (cleanTags (sl p.Tags)) } := by
  unfold Project.ValidateAndNormalize
  by_cases hA : trimSpace p.Name = []
  · rw [if_pos hA]
    simp [hA]
  · rw [if_neg hA]
    by_cases hB : isAbsPath p.Path = true
    · rw [if_neg (fun hc => hc hB)]
      by_cases hC : fs.contains p.Path = true
      · rw [if_neg (fun hc => hc hC)]
        by_cases hD : p.Status ≠ [] ∧ isValidStatus p.Status = false
        · rw [if_pos hD]
          simp [hD]
        · rw [if_neg hD]
          simp only [Except.ok.injEq]
          constructor
          · intro h
            exact ⟨hA, hB, hC, hD, h.symm⟩
          · rintro ⟨-, -, -, -, h⟩
            exact h.symm
      · rw [if_pos hC]
        constructor
        · intro h
          simp at h
        · rintro ⟨-, -, hc, -⟩
          exact absurd hc hC
    · rw [if_pos hB]
      constructor
      · intro h
        simp at h
      · rintro ⟨-, hb, -⟩
        exact absurd hb hB

theorem vn_fields {p : Project} {fs : List GoStr} {p' : Project}
    (h : p.ValidateAndNormalize fs = .ok p') :
    p'.ID = p.ID ∧ p'.Path = p.Path ∧ p'.Name = p.Name ∧ p'.Status = p.Status ∧
      p'.Tags = some (cleanTags (sl p.Tags)) := by
  rcases (vn_ok_iff p fs p').mp h with ⟨-, -, -, -, rfl⟩
  exact ⟨rfl, rfl, rfl, rfl, rfl⟩

theorem cleanTags_spec (l : List GoStr) :
    cleanTags l = (l.map trimSpace).filter (fun t => !t.isEmpty) := by
  induction l with
  | nil => rfl
  | cons t ts ih =>
    by_cases h : trimSpace t = []
    · rw [show cleanTags (t :: ts) = cleanTags ts from by
        simp [cleanTags, List.filterMap_cons, h]]
      rw [List.map_cons, List.filter_cons, if_neg (by simp [h]), ih]
    · rw [show cleanTags (t :: ts) = trimSpace t :: cleanTags ts from by
        simp [cleanTags, List.filterMap_cons, h]]
      rw [List.map_cons, List.filter_cons, if_pos (by simp [h]), ih]

theorem mem_cleanTags {x : GoStr} {l : List GoStr} (hx : x ∈ cleanTags l) :
    trimSpace x = x ∧ x ≠ [] := by
  rw [cleanTags_spec, List.mem_filter] at hx
  obtain ⟨hmem, hne⟩ := hx
  obtain ⟨t, -, rfl⟩ := List.mem_map.mp hmem
  refine ⟨trimSpace_idem t, by simpa using hne⟩

theorem cleanTags_idem (l : List GoStr) : cleanTags (cleanTags l) = cleanTags l := by
  rw [cleanTags_spec (cleanTags l)]
  rw [show (cleanTags l).map trimSpace = cleanTags l from by
    rw [List.map_congr_left (fun x hx => (mem_cleanTags hx).1)]
    simp]
  exact List.filter_eq_self.mpr (fun x hx => by simpa using (mem_cleanTags hx).2)

/-- Reduced form of `Add` once validation has succeeded. -/
theorem Add_ok_step (c : YAMLCatalog) (fs : List GoStr) {p p' : Project}
    (hv : p.ValidateAndNormalize fs = .ok p') :
    c.Add fs p =
      if (mfind c.byPath p'.Path).isSome then (some CatalogErr.alreadyExists, c)
      else (none, { c with projects := mput c.projects p'.ID p',
                           byPath := mput c.byPath p'.Path p'.ID }) := by
  unfold YAMLCatalog.Add
  rw [hv]

/-- Reduced form of `Remove` when the id is stored. -/
theorem Remove_found_step (c : YAMLCatalog) {id : GoStr} {p : Project}
    (h : mfind c.projects id = some p) :
    c.Remove id =
      (none, { c with projects := mdel c.projects id, byPath := mdel c.byPath p.Path }) := by
  unfold YAMLCatalog.Remove
  rw [h]

/-- Reduced form of `Remove` when the id is absent. -/
theorem Remove_missing_step (c : YAMLCatalog) {id : GoStr}
    (h : mfind c.projects id = none) :
    c.Remove id = (some CatalogErr.notFound, c) := by
  unfold YAMLCatalog.Remove
  rw [h]

/-! Claim theorems. -/

/-- C2, counterexample: on an engine already holding one record, `load()` with
the backing file absent returns no error yet leaves `count() = 1`, not `0` —
refuting "yields an empty catalog regardless of what the engine held". -/
theorem load_missing_counterexample :
    ((emptyCatalog.Add fsW recA).2.Load .missing).1 = none ∧
    ((emptyCatalog.Add fsW recA).2.Load .missing).2.Count ≠ 0 := by
  decide

/-- C2 (amended): `load()` when the backing file does not exist returns no
error and leaves the in-memory state exactly unchanged; hence a freshly
constructed engine still has `count() = 0` and `list()` empty. -/
theorem load_missing_noop (c : YAMLCatalog) :
    c.Load .missing = (none, c) ∧
    (emptyCatalog.Load .missing).2.Count = 0 ∧
    (emptyCatalog.Load .missing).2.ListProjects = [] := by
  exact ⟨rfl, rfl, rfl⟩

/-- C3, counterexample: `recA` passes validation and is already stored; the
second `add(recA)` fails with `AlreadyExists`, but `remove(recA.ID)` then
deletes the stored record, so the count drops from 1 to 0 instead of being
restored. -/
theorem add_remove_count_counterexample :
    (recA.ValidateAndNormalize fsW = .ok recA) ∧
    (emptyCatalog.Add fsW recA).2.Count = 1 ∧
    (((emptyCatalog.Add fsW recA).2.Add fsW recA).1 = some .alreadyExists) ∧
    ((((emptyCatalog.Add fsW recA).2.Add fsW recA).2.Remove recA.ID).2.Count = 0) := by
  refine ⟨by decide, by decide, by decide, by decide⟩

/-- C3 (amended): for every catalog state and every record `r` that passes
validation and whose id is not already stored, `add(r)` followed by
`remove(r.ID)` restores `count()` to its prior value, whether or not the add
succeeded. -/
theorem add_remove_restores_count (c : YAMLCatalog) (fs : List GoStr)
    (r r' : Project) (hv : r.ValidateAndNormalize fs = .ok r')
    (hid : mfind c.projects r.ID = none) :
    (((c.Add fs r).2.Remove r.ID).2).Count = c.Count := by
  obtain ⟨hID, hPath, -, -, -⟩ := vn_fields hv
  rw [Add_ok_step c fs hv]
  by_cases hp : (mfind c.byPath r'.Path).isSome
  · rw [if_pos hp]
    rw [Remove_missing_step c hid]
  · rw [if_neg hp]
    have hfind : mfind (mput c.projects r'.ID r') r.ID = some r' := by
      rw [← hID, mfind_mput_self]
    rw [Remove_found_step _ hfind]
    simp only [YAMLCatalog.Count]
    have hlen1 : (mput c.projects r'.ID r').length = c.projects.length + 1 := by
      rw [length_mput, hID, hid]
      simp
    have hsome : (mfind (mput c.projects r'.ID r') r.ID).isSome := by
      rw [hfind]
      rfl
    have hlen2 := length_mdel_present (mput c.projects r'.ID r') r.ID hsome
    omega

/-- C3 witness: the amended statement applies to adding `recB` to a catalog
holding `recA`, restoring the count to 1. -/
theorem add_remove_restores_count_witness :
    ((((emptyCatalog.Add fsW recA).2.Add fsW recB).2.Remove recB.ID).2).Count =
      (emptyCatalog.Add fsW recA).2.Count :=
  add_remove_restores_count (emptyCatalog.Add fsW recA).2 fsW recB recB
    (by decide) (by decide)

/-- C4: if `update(p)` is called with a record whose id is stored but whose
changed path is owned by a different id in the secondary index, the call
returns `AlreadyExists` and the state — both indices and both affected
records — is exactly the pre-state. -/
theorem update_path_conflict_no_mutation (c : YAMLCatalog) (fs : List GoStr)
    (p p' existing : Project) (otherId : GoStr)
    (hv : p.ValidateAndNormalize fs = .ok p')
    (hex : mfind c.projects p.ID = some existing)
    (hpath : existing.Path ≠ p.Path)
    (hown : mfind c.byPath p.Path = some otherId)
    (hne : otherId ≠ p.ID) :
    c.Update fs p = (some .alreadyExists, c) := by
  obtain ⟨hID, hPath, -, -, -⟩ := vn_fields hv
  have hstep : c.Update fs p =
      (match mfind c.projects p'.ID with
      | none => (some CatalogErr.notFound, c)
      | some existing =>
        if existing.Path = p'.Path then
          (none, { c with projects := mput c.projects p'.ID p' })
        else
          match mfind c.byPath p'.Path with
          | some existingID =>
            if existingID = p'.ID then
              (none, { c with byPath := mput (mdel c.byPath existing.Path) p'.Path p'.ID,
                              projects := mput c.projects p'.ID p' })
            else
              (some .alreadyExists, c)
          | none =>
            (none, { c with byPath := mput (mdel c.byPath existing.Path) p'.Path p'.ID,
                            projects := mput c.projects p'.ID p' })) := by
    unfold YAMLCatalog.Update
    rw [hv]
  rw [hstep, hID, hex]
  simp only
  rw [if_neg (by rw [hPath]; exact hpath), hPath, hown]
  simp only
  rw [if_neg hne]

/-- C4 witness: updating `recB` to sit at `recA`'s path on a catalog holding
both records is rejected with `AlreadyExists` and changes nothing. -/
theorem update_path_conflict_no_mutation_witness :
    ((emptyCatalog.Add fsW recA).2.Add fsW recB).2.Update fsW
      { recB with Path := gs "/a" } =
      (some .alreadyExists, ((emptyCatalog.Add fsW recA).2.Add fsW recB).2) :=
  update_path_conflict_no_mutation _ fsW { recB with Path := gs "/a" }
    { recB with Path := gs "/a" } recB (gs "ida")
    (by decide) (by decide) (by decide) (by decide) (by decide)

/-- C10: adding a validated record with a fresh path but an id equal to an
already-stored record with a different path succeeds, replaces the record in
the primary index (count unchanged), and leaves the old path mapped to the id,
so `get_by_path(old path)` now returns the newly added (normalized) record. -/
theorem add_same_id_fresh_path (c : YAMLCatalog) (fs : List GoStr)
    (p p' q : Project)
    (hv : p.ValidateAndNormalize fs = .ok p')
    (hex : mfind c.projects p.ID = some q)
    (hqpath : q.Path ≠ p.Path)
    (hfresh : mfind c.byPath p.Path = none)
    (hqown : mfind c.byPath q.Path = some p.ID) :
    (c.Add fs p).1 = none ∧
    (c.Add fs p).2.Count = c.Count ∧
    (c.Add fs p).2.GetByPath q.Path = .ok p' := by
  obtain ⟨hID, hPath, -, -, -⟩ := vn_fields hv
  rw [Add_ok_step c fs hv]
  rw [if_neg (by rw [hPath, hfresh]; simp)]
  refine ⟨rfl, ?_, ?_⟩
  · simp only [YAMLCatalog.Count]
    rw [length_mput, hID, hex]
    simp
  · unfold YAMLCatalog.GetByPath
    simp only
    rw [mfind_mput_ne _ _ _ _ (by rw [hPath]; exact fun h => hqpath h.symm), hqown, ← hID]
    show Except.ok ((mfind (mput c.projects p'.ID p') p'.ID).getD zeroProject) = Except.ok p'
    rw [mfind_mput_self]
    rfl

/-- C10 witness: on a catalog holding `recA` (id `ida` at `/a`), adding a
record with the same id at fresh path `/d` keeps the count at 1 and makes
`get_by_path("/a")` return the new record. -/
theorem add_same_id_fresh_path_witness :
    (((emptyCatalog.Add fsW recA).2.Add fsW { recA with Path := gs "/d" }).1 = none) ∧
    ((emptyCatalog.Add fsW recA).2.Add fsW { recA with Path := gs "/d" }).2.Count =
      (emptyCatalog.Add fsW recA).2.Count ∧
    ((emptyCatalog.Add fsW recA).2.Add fsW { recA with Path := gs "/d" }).2.GetByPath
      (gs "/a") = .ok { recA with Path := gs "/d" } :=
  add_same_id_fresh_path (emptyCatalog.Add fsW recA).2 fsW
    { recA with Path := gs "/d" } { recA with Path := gs "/d" } recA
    (by decide) (by decide) (by decide) (by decide) (by decide)

/-- C8 (code bug, failing inputs): `NewProject` leaves `Tags` as the zero
value `nil`, and `load()` of a parsed file whose entry omits the `types` and
`tags` keys stores the record with both containers `nil` — contradicting the
repository's own invariant tests (INV-4/INV-5, `InvTypesNotNil`/
`InvTagsNotNil`). -/
theorem stored_nil_containers :
    (NewProject (gs "id") 0 (gs "n") (gs "/p")).Tags = none ∧
    (emptyCatalog.Load (.parsed ⟨1,
      [{ ID := gs "a", Name := gs "n", Path := gs "/p", Types := none,
         Tags := none, Status := [], Notes := [], AddedAt := 0,
         LastAccessed := 0, GitRemote := [], Description := [] }]⟩)).2.ListProjects =
      [{ ID := gs "a", Name := gs "n", Path := gs "/p", Types := none,
         Tags := none, Status := [], Notes := [], AddedAt := 0,
         LastAccessed := 0, GitRemote := [], Description := [] }] := by
  exact ⟨rfl, rfl⟩

/-- C7: whenever validation succeeds, the record's tags have been rewritten to
exactly the trimmed, nonempty tags in their original relative order, and the
normalization is idempotent: validating the returned record again succeeds and
returns it unchanged. -/
theorem validate_normalize_tags (p : Project) (fs : List GoStr) (p' : Project)
    (hv : p.ValidateAndNormalize fs = .ok p') :
    sl p'.Tags = ((sl p.Tags).map trimSpace).filter (fun t => !t.isEmpty) ∧
    p'.ValidateAndNormalize fs = .ok p' := by
  rcases (vn_ok_iff p fs p').mp hv with ⟨hA, hB, hC, hD, rfl⟩
  constructor
  · show cleanTags (sl p.Tags) = _
    exact cleanTags_spec _
  · rw [vn_ok_iff]
    refine ⟨hA, hB, hC, hD, ?_⟩
    have hci : cleanTags (sl (some (cleanTags (sl p.Tags)))) = cleanTags (sl p.Tags) :=
      cleanTags_idem (sl p.Tags)
    simp [Project.mk.injEq, hci]

/-- C7 witness: the spec's concrete scenario C — tags
`["valid", "  ", "another"]` normalize to `["valid", "another"]`, and a second
normalization is the identity. -/
theorem validate_normalize_tags_witness :
    sl ({ recA with Tags := some [gs "valid", gs "another"] } : Project).Tags =
      ((sl ({ recA with Tags := some [gs "valid", gs "  ", gs "another"] } : Project).Tags).map
        trimSpace).filter (fun t => !t.isEmpty) ∧
    ({ recA with Tags := some [gs "valid", gs "another"] } : Project).ValidateAndNormalize
      fsW = .ok { recA with Tags := some [gs "valid", gs "another"] } :=
  validate_normalize_tags { recA with Tags := some [gs "valid", gs "  ", gs "another"] }
    fsW { recA with Tags := some [gs "valid", gs "another"] } (by decide)

/-- C6, counterexample: with a stored record named `ſx` (U+017F then `x`),
`search("ſ")` returns that record's id but `search(upper("ſ")) = search("S")`
returns nothing — the two id sets differ, because Go's Unicode case mapping
sends `ſ` to `S` while lower-casing `S` gives `s ≠ ſ`. -/
theorem search_case_counterexample :
    (((emptyCatalog.Add [gs "/u"] recUni).2.Search [383]).map Project.ID =
      [gs "idu"]) ∧
    (((emptyCatalog.Add [gs "/u"] recUni).2.Search (toUpperStr [383])).map
      Project.ID = []) := by
  decide

/-- C6 (amended): for every catalog state and every ASCII query string,
searching for the query and for its uppercased form return identical results
(hence the same id sets); and a record is returned exactly when it is stored
and the query is empty or occurs case-insensitively inside its name, its
path, or one of its tags. -/
theorem search_case_insensitive (c : YAMLCatalog) (q : GoStr)
    (hq : ∀ ch ∈ q, ch < 128) :
    c.Search (toUpperStr q) = c.Search q ∧
    (∀ p : Project, p ∈ c.Search q ↔ p ∈ c.ListProjects ∧
      (q = [] ∨ (containsStr (toLowerStr p.Name) (toLowerStr q) = true ∨
                 containsStr (toLowerStr p.Path) (toLowerStr q) = true ∨
                 ∃ t ∈ sl p.Tags, containsStr (toLowerStr t) (toLowerStr q) = true))) := by
  constructor
  · unfold YAMLCatalog.Search
    by_cases hqe : q = []
    · subst hqe
      rfl
    · rw [if_neg hqe, if_neg (by simpa [toUpperStr] using hqe),
        toLowerStr_toUpperStr_ascii q hq]
  · intro p
    unfold YAMLCatalog.Search
    by_cases hqe : q = []
    · subst hqe
      simp
    · rw [if_neg hqe, List.mem_filter]
      simp only [matchesQuery, Bool.or_eq_true, List.any_eq_true, hqe, false_or]
      tauto

/-- C6 witness: the amended statement applied to the ASCII query `alp` on a
catalog holding `recA`. -/
theorem search_case_insensitive_witness :
    ((emptyCatalog.Add fsW recA).2.Search (toUpperStr (gs "alp")) =
      (emptyCatalog.Add fsW recA).2.Search (gs "alp")) ∧
    (∀ p : Project, p ∈ (emptyCatalog.Add fsW recA).2.Search (gs "alp") ↔
      p ∈ (emptyCatalog.Add fsW recA).2.ListProjects ∧
      (gs "alp" = [] ∨
        (containsStr (toLowerStr p.Name) (toLowerStr (gs "alp")) = true ∨
         containsStr (toLowerStr p.Path) (toLowerStr (gs "alp")) = true ∨
         ∃ t ∈ sl p.Tags,
           containsStr (toLowerStr t) (toLowerStr (gs "alp")) = true))) :=
  search_case_insensitive (emptyCatalog.Add fsW recA).2 (gs "alp") (by decide)


/-! Generic facts about the stable-sort model. -/

theorem insertStable_perm {α : Type} (less : α → α → Bool) (x : α) (l : List α) :
    (insertStable less x l).Perm (x :: l) := by
  induction l with
  | nil => exact List.Perm.refl _
  | cons y ys ih =>
    unfold insertStable
    by_cases h : less y x
    · rw [if_pos h]
      exact (List.Perm.cons y ih).trans (List.Perm.swap x y ys)
    · rw [if_neg h]

theorem sortSliceStable_perm {α : Type} (less : α → α → Bool) (l : List α) :
    (sortSliceStable less l).Perm l := by
  induction l with
  | nil => exact List.Perm.refl _
  | cons x xs ih =>
    exact (insertStable_perm less x (sortSliceStable less xs)).trans (List.Perm.cons x ih)

theorem mem_insertStable {α : Type} {less : α → α → Bool} {x z : α} {l : List α}
    (h : z ∈ insertStable less x l) : z = x ∨ z ∈ l := by
  have := (insertStable_perm less x l).mem_iff.mp h
  simpa using this

theorem mem_sortSliceStable {α : Type} {less : α → α → Bool} {z : α} {l : List α}
    (h : z ∈ sortSliceStable less l) : z ∈ l :=
  (sortSliceStable_perm less l).mem_iff.mp h

theorem pairwise_insertStable {α : Type} (less : α → α → Bool) (x : α) (l : List α)
    (hnd : (x :: l).Nodup)
    (hs : l.Pairwise (fun a b => less b a = false))
    (hasym : ∀ a ∈ x :: l, ∀ b ∈ x :: l, a ≠ b → less a b = true → less b a = false)
    (hneg : ∀ a ∈ x :: l, ∀ b ∈ x :: l, ∀ c ∈ x :: l, a ≠ b → b ≠ c → a ≠ c →
        less a b = false → less b c = false → less a c = false) :
    (insertStable less x l).Pairwise (fun a b => less b a = false) := by
  induction l with
  | nil => simp [insertStable]
  | cons y ys ih =>
    rw [List.nodup_cons, List.mem_cons] at hnd
    obtain ⟨hxny, hndyys⟩ := hnd
    rw [List.nodup_cons] at hndyys
    obtain ⟨hyys, hndys⟩ := hndyys
    rw [List.pairwise_cons] at hs
    obtain ⟨hy, hys⟩ := hs
    have hsub : ∀ a, a ∈ x :: ys → a ∈ x :: y :: ys := by
      intro a ha
      rcases List.mem_cons.mp ha with h1 | h1
      · simp [h1]
      · simp [h1]
    unfold insertStable
    by_cases h : less y x
    · rw [if_pos h]
      rw [List.pairwise_cons]
      constructor
      · intro w hw
        rcases mem_insertStable hw with h1 | h1
        · rw [h1]
          exact hasym y (by simp) x (by simp) (fun he => hxny (Or.inl he.symm)) h
        · exact hy w h1
      · refine ih ?_ hys ?_ ?_
        · rw [List.nodup_cons]
          exact ⟨fun hc => hxny (Or.inr hc), hndys⟩
        · exact fun a ha b hb => hasym a (hsub a ha) b (hsub b hb)
        · exact fun a ha b hb c hc => hneg a (hsub a ha) b (hsub b hb) c (hsub c hc)
    · rw [if_neg h]
      rw [List.pairwise_cons]
      constructor
      · intro z hz
        rcases List.mem_cons.mp hz with h1 | h1
        · rw [h1]
          simpa using h
        · exact hneg z (by simp [h1]) y (by simp) x (by simp)
            (fun hzy => hyys (hzy ▸ h1)) (fun hyx => hxny (Or.inl hyx.symm))
            (fun hzx => hxny (Or.inr (hzx ▸ h1)))
            (hy z h1) (by simpa using h)
      · rw [List.pairwise_cons]
        exact ⟨hy, hys⟩

theorem pairwise_sortSliceStable {α : Type} (less : α → α → Bool) (l : List α)
    (hnd : l.Nodup)
    (hasym : ∀ a ∈ l, ∀ b ∈ l, a ≠ b → less a b = true → less b a = false)
    (hneg : ∀ a ∈ l, ∀ b ∈ l, ∀ c ∈ l, a ≠ b → b ≠ c → a ≠ c →
        less a b = false → less b c = false → less a c = false) :
    (sortSliceStable less l).Pairwise (fun a b => less b a = false) := by
  induction l with
  | nil => simp [sortSliceStable]
  | cons x xs ih =>
    rw [List.nodup_cons] at hnd
    obtain ⟨hx, hnds⟩ := hnd
    unfold sortSliceStable
    have hmem : ∀ z ∈ x :: sortSliceStable less xs, z ∈ x :: xs := by
      intro z hz
      rcases List.mem_cons.mp hz with rfl | hz
      · simp
      · simp [mem_sortSliceStable hz]
    refine pairwise_insertStable less x (sortSliceStable less xs) ?_ ?_ ?_ ?_
    · rw [List.nodup_cons]
      exact ⟨fun hc => hx (mem_sortSliceStable hc),
        (sortSliceStable_perm less xs).nodup_iff.mpr hnds⟩
    · exact ih hnds
        (fun a ha b hb => hasym a (by simp [ha]) b (by simp [hb]))
        (fun a ha b hb c hc => hneg a (by simp [ha]) b (by simp [hb]) c (by simp [hc]))
    · exact fun a ha b hb => hasym a (hmem a ha) b (hmem b hb)
    · exact fun a ha b hb c hc => hneg a (hmem a ha) b (hmem b hb) c (hmem c hc)

theorem sorted_perm_unique {α : Type} {R : α → α → Prop} :
    ∀ {l₁ l₂ : List α}, l₁.Perm l₂ → l₁.Pairwise R → l₂.Pairwise R →
    (∀ a ∈ l₁, ∀ b ∈ l₁, R a b → R b a → a = b) → l₁ = l₂ := by
  intro l₁
  induction l₁ with
  | nil =>
    intro l₂ hp _ _ _
    exact (hp.nil_eq).symm ▸ rfl
  | cons x t ih =>
    intro l₂ hp h1 h2 hanti
    cases l₂ with
    | nil => exact absurd hp.symm.nil_eq (by simp)
    | cons y u =>
      rw [List.pairwise_cons] at h1 h2
      obtain ⟨hxall, h1t⟩ := h1
      obtain ⟨hyall, h2u⟩ := h2
      have hxy : x = y := by
        have hxmem : x ∈ y :: u := hp.mem_iff.mp (by simp)
        rcases List.mem_cons.mp hxmem with hxy | hxu
        · exact hxy
        · have hymem : y ∈ x :: t := hp.symm.mem_iff.mp (by simp)
          rcases List.mem_cons.mp hymem with hyx | hyt
          · exact hyx.symm
          · exact hanti x (by simp) y (by simp [hyt]) (hxall y hyt) (hyall x hxu)
      subst hxy
      have htu : t.Perm u := hp.cons_inv
      rw [ih htu h1t h2u (fun a ha b hb => hanti a (by simp [ha]) b (by simp [hb]))]

/-! Order-theoretic facts about the comparison functions. -/

theorem lt_negtrans_of {κ : Type} (klt : κ → κ → Bool)
    (htrans : ∀ a b c, klt a b = true → klt b c = true → klt a c = true)
    (hconn : ∀ a b, klt a b = false → klt b a = false → a = b) :
    ∀ a b c, klt a b = false → klt b c = false → klt a c = false := by
  intro a b c hab hbc
  cases hac : klt a c
  · rfl
  · exfalso
    cases hba : klt b a
    · have hab2 : a = b := hconn a b hab hba
      rw [hab2, hbc] at hac
      exact Bool.false_ne_true hac
    · have hbc2 : klt b c = true := htrans b a c hba hac
      rw [hbc] at hbc2
      exact Bool.false_ne_true hbc2

theorem natLt_asymm : ∀ a b : Nat, natLt a b = true → natLt b a = false := by
  intro a b h
  simp [natLt] at h ⊢
  omega

theorem natLt_trans : ∀ a b c : Nat, natLt a b = true → natLt b c = true →
    natLt a c = true := by
  intro a b c h1 h2
  simp [natLt] at h1 h2 ⊢
  omega

theorem natLt_conn : ∀ a b : Nat, natLt a b = false → natLt b a = false → a = b := by
  intro a b h1 h2
  simp [natLt] at h1 h2
  omega

theorem cmpWithID_asymm {κ : Type} [DecidableEq κ] (klt : κ → κ → Bool)
    (hasym : ∀ a b, klt a b = true → klt b a = false)
    (ka kb : κ) (ia ib : GoStr) :
    cmpWithID klt ka kb ia ib = true → cmpWithID klt kb ka ib ia = false := by
  unfold cmpWithID
  by_cases he : ka = kb
  · rw [if_pos he, if_pos he.symm]
    exact ltStr_asymm _ _
  · rw [if_neg he, if_neg (fun h => he h.symm)]
    exact hasym ka kb

theorem cmpWithID_trans {κ : Type} [DecidableEq κ] (klt : κ → κ → Bool)
    (hasym : ∀ a b, klt a b = true → klt b a = false)
    (htrans : ∀ a b c, klt a b = true → klt b c = true → klt a c = true)
    (ka kb kc : κ) (ia ib ic : GoStr) :
    cmpWithID klt ka kb ia ib = true → cmpWithID klt kb kc ib ic = true →
    cmpWithID klt ka kc ia ic = true := by
  unfold cmpWithID
  by_cases hab : ka = kb
  · by_cases hbc : kb = kc
    · rw [if_pos hab, if_pos hbc, if_pos (hab.trans hbc)]
      exact ltStr_trans ia ib ic
    · rw [if_pos hab, if_neg hbc, if_neg (fun h => hbc (hab.symm.trans h))]
      intro _ h
      rw [hab]
      exact h
  · by_cases hbc : kb = kc
    · rw [if_neg hab, if_pos hbc, if_neg (fun h => hab (h.trans hbc.symm))]
      intro h _
      rw [← hbc]
      exact h
    · by_cases hac : ka = kc
      · rw [if_neg hab, if_neg hbc, if_pos hac]
        intro h1 h2
        exfalso
        rw [← hac] at h2
        have h3 := hasym ka kb h1
        rw [h3] at h2
        exact Bool.false_ne_true h2
      · rw [if_neg hab, if_neg hbc, if_neg hac]
        exact htrans ka kb kc

theorem cmpWithID_negtrans {κ : Type} [DecidableEq κ] (klt : κ → κ → Bool)
    (htrans : ∀ a b c, klt a b = true → klt b c = true → klt a c = true)
    (hconn : ∀ a b, klt a b = false → klt b a = false → a = b)
    (ka kb kc : κ) (ia ib ic : GoStr) :
    cmpWithID klt ka kb ia ib = false → cmpWithID klt kb kc ib ic = false →
    cmpWithID klt ka kc ia ic = false := by
  unfold cmpWithID
  by_cases hab : ka = kb
  · by_cases hbc : kb = kc
    · rw [if_pos hab, if_pos hbc, if_pos (hab.trans hbc)]
      exact lt_negtrans_of ltStr ltStr_trans ltStr_conn ia ib ic
    · rw [if_pos hab, if_neg hbc, if_neg (fun h => hbc (hab.symm.trans h))]
      intro _ h
      rw [hab]
      exact h
  · by_cases hbc : kb = kc
    · rw [if_neg hab, if_pos hbc, if_neg (fun h => hab (h.trans hbc.symm))]
      intro h _
      rw [← hbc]
      exact h
    · by_cases hac : ka = kc
      · rw [if_neg hab, if_neg hbc, if_pos hac]
        intro h1 h2
        exfalso
        rw [← hac] at h2
        exact hab (hconn ka kb h1 h2)
      · rw [if_neg hab, if_neg hbc, if_neg hac]
        exact lt_negtrans_of klt htrans hconn ka kb kc

theorem cmpWithID_ff {κ : Type} [DecidableEq κ] (klt : κ → κ → Bool)
    (hconn : ∀ a b, klt a b = false → klt b a = false → a = b)
    (ka kb : κ) (ia ib : GoStr) :
    cmpWithID klt ka kb ia ib = false → cmpWithID klt kb ka ib ia = false →
    ka = kb ∧ ia = ib := by
  unfold cmpWithID
  by_cases he : ka = kb
  · rw [if_pos he, if_pos he.symm]
    exact fun h1 h2 => ⟨he, ltStr_conn ia ib h1 h2⟩
  · rw [if_neg he, if_neg (fun h => he h.symm)]
    exact fun h1 h2 => absurd (hconn ka kb h1 h2) he

theorem compareProjects_asymm (sf : GoStr) (a b : Project) :
    compareProjects a b sf = true → compareProjects b a sf = false := by
  unfold compareProjects
  by_cases h1 : sf = SortByPath
  · simp only [if_pos h1]
    exact cmpWithID_asymm ltStr ltStr_asymm _ _ _ _
  · simp only [if_neg h1]
    by_cases h2 : sf = SortByLastAccessed
    · simp only [if_pos h2]
      exact cmpWithID_asymm natLt natLt_asymm _ _ _ _
    · simp only [if_neg h2]
      by_cases h3 : sf = SortByAddedAt
      · simp only [if_pos h3]
        exact cmpWithID_asymm natLt natLt_asymm _ _ _ _
      · simp only [if_neg h3]
        by_cases h4 : sf = SortByTypes
        · simp only [if_pos h4]
          exact cmpWithID_asymm ltStr ltStr_asymm _ _ _ _
        · simp only [if_neg h4]
          exact cmpWithID_asymm ltStr ltStr_asymm _ _ _ _

theorem compareProjects_trans (sf : GoStr) (a b c : Project) :
    compareProjects a b sf = true → compareProjects b c sf = true →
    compareProjects a c sf = true := by
  unfold compareProjects
  by_cases h1 : sf = SortByPath
  · simp only [if_pos h1]
    exact cmpWithID_trans ltStr ltStr_asymm ltStr_trans _ _ _ _ _ _
  · simp only [if_neg h1]
    by_cases h2 : sf = SortByLastAccessed
    · simp only [if_pos h2]
      exact cmpWithID_trans natLt natLt_asymm natLt_trans _ _ _ _ _ _
    · simp only [if_neg h2]
      by_cases h3 : sf = SortByAddedAt
      · simp only [if_pos h3]
        exact cmpWithID_trans natLt natLt_asymm natLt_trans _ _ _ _ _ _
      · simp only [if_neg h3]
        by_cases h4 : sf = SortByTypes
        · simp only [if_pos h4]
          exact cmpWithID_trans ltStr ltStr_asymm ltStr_trans _ _ _ _ _ _
        · simp only [if_neg h4]
          exact cmpWithID_trans ltStr ltStr_asymm ltStr_trans _ _ _ _ _ _

theorem compareProjects_negtrans (sf : GoStr) (a b c : Project) :
    compareProjects a b sf = false → compareProjects b c sf = false →
    compareProjects a c sf = false := by
  unfold compareProjects
  by_cases h1 : sf = SortByPath
  · simp only [if_pos h1]
    exact cmpWithID_negtrans ltStr ltStr_trans ltStr_conn _ _ _ _ _ _
  · simp only [if_neg h1]
    by_cases h2 : sf = SortByLastAccessed
    · simp only [if_pos h2]
      exact cmpWithID_negtrans natLt natLt_trans natLt_conn _ _ _ _ _ _
    · simp only [if_neg h2]
      by_cases h3 : sf = SortByAddedAt
      · simp only [if_pos h3]
        exact cmpWithID_negtrans natLt natLt_trans natLt_conn _ _ _ _ _ _
      · simp only [if_neg h3]
        by_cases h4 : sf = SortByTypes
        · simp only [if_pos h4]
          exact cmpWithID_negtrans ltStr ltStr_trans ltStr_conn _ _ _ _ _ _
        · simp only [if_neg h4]
          exact cmpWithID_negtrans ltStr ltStr_trans ltStr_conn _ _ _ _ _ _

theorem compareProjects_ff (sf : GoStr) (a b : Project) :
    compareProjects a b sf = false → compareProjects b a sf = false →
    a.ID = b.ID := by
  unfold compareProjects
  by_cases h1 : sf = SortByPath
  · simp only [if_pos h1]
    exact fun x y => (cmpWithID_ff ltStr ltStr_conn _ _ _ _ x y).2
  · simp only [if_neg h1]
    by_cases h2 : sf = SortByLastAccessed
    · simp only [if_pos h2]
      exact fun x y => (cmpWithID_ff natLt natLt_conn _ _ _ _ x y).2
    · simp only [if_neg h2]
      by_cases h3 : sf = SortByAddedAt
      · simp only [if_pos h3]
        exact fun x y => (cmpWithID_ff natLt natLt_conn _ _ _ _ x y).2
      · simp only [if_neg h3]
        by_cases h4 : sf = SortByTypes
        · simp only [if_pos h4]
          exact fun x y => (cmpWithID_ff ltStr ltStr_conn _ _ _ _ x y).2
        · simp only [if_neg h4]
          exact fun x y => (cmpWithID_ff ltStr ltStr_conn _ _ _ _ x y).2

theorem projLess_false (sf : GoStr) (a b : Project) :
    projLess sf false a b = compareProjects a b (if sf = [] then SortByName else sf) := rfl

theorem projLess_true (sf : GoStr) (a b : Project) :
    projLess sf true a b = !compareProjects a b (if sf = [] then SortByName else sf) := rfl

theorem projLess_asymm (sf : GoStr) (d : Bool) (a b : Project) (hne : a.ID ≠ b.ID) :
    projLess sf d a b = true → projLess sf d b a = false := by
  cases d
  · rw [projLess_false, projLess_false]
    exact compareProjects_asymm _ a b
  · rw [projLess_true, projLess_true, Bool.not_eq_true', Bool.not_eq_false']
    intro h
    cases hba : compareProjects b a (if sf = [] then SortByName else sf)
    · exact absurd (compareProjects_ff _ a b h hba) hne
    · rfl

theorem projLess_negtrans (sf : GoStr) (d : Bool) (a b c : Project) :
    projLess sf d a b = false → projLess sf d b c = false →
    projLess sf d a c = false := by
  cases d
  · rw [projLess_false, projLess_false, projLess_false]
    exact compareProjects_negtrans _ a b c
  · rw [projLess_true, projLess_true, projLess_true, Bool.not_eq_false',
      Bool.not_eq_false', Bool.not_eq_false']
    exact compareProjects_trans _ a b c

theorem projLess_antisym_ids (sf : GoStr) (d : Bool) (a b : Project) :
    projLess sf d b a = false → projLess sf d a b = false → a.ID = b.ID := by
  cases d
  · rw [projLess_false, projLess_false]
    intro h1 h2
    exact (compareProjects_ff _ b a h1 h2).symm
  · rw [projLess_true, projLess_true, Bool.not_eq_false', Bool.not_eq_false']
    intro h1 h2
    have h3 := compareProjects_asymm _ b a h1
    rw [h3] at h2
    exact absurd h2 (by simp)

theorem filter_sorted_core (sf : GoStr) (d : Bool) (l : List Project)
    (hids : (l.map Project.ID).Nodup) :
    (sortSliceStable (projLess sf d) l).Pairwise
      (fun a b => projLess sf d b a = false) := by
  apply pairwise_sortSliceStable
  · exact hids.of_map _
  · intro a ha b hb hne hlt
    refine projLess_asymm sf d a b ?_ hlt
    intro hid
    exact hne (List.inj_on_of_nodup_map hids ha hb hid)
  · intro a ha b hb c hc _ _ _ h1 h2
    exact projLess_negtrans sf d a b c h1 h2

theorem filter_unique_core (sf : GoStr) (d : Bool) {l1 l2 : List Project}
    (hperm : l1.Perm l2) (hids : (l1.map Project.ID).Nodup) :
    sortSliceStable (projLess sf d) l1 = sortSliceStable (projLess sf d) l2 := by
  apply sorted_perm_unique (R := fun a b => projLess sf d b a = false)
  · exact ((sortSliceStable_perm _ l1).trans hperm).trans (sortSliceStable_perm _ l2).symm
  · exact filter_sorted_core sf d l1 hids
  · exact filter_sorted_core sf d l2 (((hperm.map Project.ID).nodup_iff).mp hids)
  · intro a ha b hb hR1 hR2
    exact List.inj_on_of_nodup_map hids (mem_sortSliceStable ha) (mem_sortSliceStable hb)
      (projLess_antisym_ids sf d a b hR1 hR2)

theorem filter_reverse_core (sf : GoStr) (l : List Project)
    (hids : (l.map Project.ID).Nodup) :
    sortSliceStable (projLess sf true) l =
      (sortSliceStable (projLess sf false) l).reverse := by
  have hnd : l.Nodup := hids.of_map _
  apply sorted_perm_unique (R := fun a b => projLess sf true b a = false)
  · exact ((sortSliceStable_perm _ l).trans
      (sortSliceStable_perm (projLess sf false) l).symm).trans
      (List.reverse_perm _).symm
  · exact filter_sorted_core sf true l hids
  · rw [List.pairwise_reverse]
    have hsorted := filter_sorted_core sf false l hids
    have hndup : (sortSliceStable (projLess sf false) l).Nodup :=
      ((sortSliceStable_perm (projLess sf false) l).nodup_iff).mpr hnd
    have hand := hndup.and hsorted
    refine hand.imp_of_mem ?_
    intro a b ha hb hab
    obtain ⟨hne, hR⟩ := hab
    -- goal: projLess sf true a b = false, i.e. compareProjects a b = true
    rw [projLess_true, Bool.not_eq_false']
    cases hcab : compareProjects a b (if sf = [] then SortByName else sf)
    · exfalso
      have hids2 : a.ID = b.ID := by
        have h1 : projLess sf false b a = false := hR
        have h2 : projLess sf false a b = false := by
          rw [projLess_false]
          exact hcab
        exact projLess_antisym_ids sf false a b h1 h2
      exact hne (List.inj_on_of_nodup_map hids (mem_sortSliceStable ha)
        (mem_sortSliceStable hb) hids2)
    · rfl
  · intro a ha b hb hR1 hR2
    exact List.inj_on_of_nodup_map hids (mem_sortSliceStable ha) (mem_sortSliceStable hb)
      (projLess_antisym_ids sf true a b hR1 hR2)

theorem projLess_nil_eq (d : Bool) : projLess ([] : GoStr) d = projLess SortByName d := by
  funext a b
  have h1 : (if ([] : GoStr) = [] then SortByName else ([] : GoStr)) = SortByName :=
    if_pos rfl
  unfold projLess
  rw [h1, ite_self]

/-- C5: `filter(options)` returns the surviving records sorted by the selected
comparison (defaulting to case-insensitive name, ties broken by id, direction
per the descending flag): the result is a permutation of the matching records
and is sorted; any two states holding the same records (in any index order)
produce identical output; the descending flag reverses the entire ordering
(tie-break included); and the empty sort field behaves as `SortByName`. -/
theorem filter_sorted_deterministic (c c' : YAMLCatalog) (opts : FilterOptions)
    (hids : (c.ListProjects.map Project.ID).Nodup)
    (hperm : c.projects.Perm c'.projects) :
    (c.Filter opts).Perm (c.ListProjects.filter (fun p => matchesFilter p opts)) ∧
    (c.Filter opts).Pairwise (fun a b => projLess opts.SortBy opts.Descending b a = false) ∧
    c.Filter opts = c'.Filter opts ∧
    c.Filter { opts with Descending := true } =
      (c.Filter { opts with Descending := false }).reverse ∧
    c.Filter { opts with SortBy := [] } = c.Filter { opts with SortBy := SortByName } := by
  have hidsF : ∀ (o : FilterOptions),
      ((c.ListProjects.filter (fun p => matchesFilter p o)).map Project.ID).Nodup :=
    fun o => ((List.filter_sublist c.ListProjects).map Project.ID).nodup hids
  refine ⟨?_, ?_, ?_, ?_, ?_⟩
  · exact sortSliceStable_perm _ _
  · exact filter_sorted_core opts.SortBy opts.Descending _ (hidsF opts)
  · have hl : (c.ListProjects.filter (fun p => matchesFilter p opts)).Perm
        (c'.ListProjects.filter (fun p => matchesFilter p opts)) :=
      List.Perm.filter _ (hperm.map Prod.snd)
    exact filter_unique_core opts.SortBy opts.Descending hl (hidsF opts)
  · exact filter_reverse_core opts.SortBy _ (hidsF opts)
  · show sortSliceStable (projLess [] opts.Descending) _ =
      sortSliceStable (projLess SortByName opts.Descending) _
    rw [projLess_nil_eq]
    rfl

/-- C5 witness: the statement applied to the three-record catalog `cW` with
the zero-valued options. -/
theorem filter_sorted_deterministic_witness :
    (cW.Filter optsW).Perm (cW.ListProjects.filter (fun p => matchesFilter p optsW)) ∧
    (cW.Filter optsW).Pairwise
      (fun a b => projLess optsW.SortBy optsW.Descending b a = false) ∧
    cW.Filter optsW = cW.Filter optsW ∧
    cW.Filter { optsW with Descending := true } =
      (cW.Filter { optsW with Descending := false }).reverse ∧
    cW.Filter { optsW with SortBy := [] } =
      cW.Filter { optsW with SortBy := SortByName } :=
  filter_sorted_deterministic cW cW optsW (by decide) (List.Perm.refl _)

/-! Facts about rebuilding the indices by folding insertions (`Load`). -/

theorem mem_mput_weak {β : Type} : ∀ {m : List (GoStr × β)} {k : GoStr} {v : β}
    {e : GoStr × β}, e ∈ mput m k v → e = (k, v) ∨ e ∈ m := by
  intro m
  induction m with
  | nil =>
    intro k v e he
    simp [mput] at he
    simp [he]
  | cons e0 t ih =>
    obtain ⟨k0, v0⟩ := e0
    intro k v e he
    by_cases h0 : k0 = k
    · rw [mput, if_pos h0] at he
      rcases List.mem_cons.mp he with h1 | h1
      · left; exact h1
      · right; exact List.mem_cons_of_mem _ h1
    · rw [mput, if_neg h0] at he
      rcases List.mem_cons.mp he with h1 | h1
      · right; exact h1 ▸ List.mem_cons_self _ _
      · rcases ih h1 with h2 | h2
        · left; exact h2
        · right; exact List.mem_cons_of_mem _ h2

theorem mem_mdel_fst_ne {β : Type} : ∀ {m : List (GoStr × β)} {k : GoStr}
    {e : GoStr × β}, (m.map Prod.fst).Nodup → e ∈ mdel m k → e.1 ≠ k := by
  intro m
  induction m with
  | nil =>
    intro k e _ he
    simp [mdel] at he
  | cons e0 t ih =>
    obtain ⟨k0, v0⟩ := e0
    intro k e hnd he
    simp only [List.map_cons, List.nodup_cons] at hnd
    by_cases h0 : k0 = k
    · rw [mdel, if_pos h0] at he
      intro hek
      exact hnd.1 (h0 ▸ hek ▸ List.mem_map_of_mem Prod.fst he)
    · rw [mdel, if_neg h0] at he
      rcases List.mem_cons.mp he with h1 | h1
      · rw [h1]
        exact h0
      · exact ih hnd.2 h1

theorem mfind_foldl_mput_notin {β γ : Type} (key : γ → GoStr) (val : γ → β) :
    ∀ (t : List γ) (m : List (GoStr × β)) (k : GoStr),
    (∀ p ∈ t, key p ≠ k) →
    mfind (t.foldl (fun m p => mput m (key p) (val p)) m) k = mfind m k := by
  intro t
  induction t with
  | nil =>
    intro m k _
    rfl
  | cons x xs ih =>
    intro m k h
    simp only [List.foldl_cons]
    rw [ih _ k (fun p hp => h p (by simp [hp]))]
    exact mfind_mput_ne _ _ _ _ (h x (by simp))

theorem mfind_foldl_mput {β γ : Type} (key : γ → GoStr) (val : γ → β) :
    ∀ (rs : List γ) (m : List (GoStr × β)) (r : γ), r ∈ rs →
    rs.Pairwise (fun a b => key a ≠ key b) →
    mfind (rs.foldl (fun m p => mput m (key p) (val p)) m) (key r) = some (val r) := by
  intro rs
  induction rs with
  | nil =>
    intro m r hr
    simp at hr
  | cons x xs ih =>
    intro m r hr hp
    rw [List.pairwise_cons] at hp
    obtain ⟨hx, hxs⟩ := hp
    simp only [List.foldl_cons]
    rcases List.mem_cons.mp hr with h1 | h1
    · rw [h1]
      rw [mfind_foldl_mput_notin key val xs _ (key x) (fun p hp h => hx p hp h.symm)]
      exact mfind_mput_self _ _ _
    · exact ih _ r h1 hxs

theorem mem_foldl_mput {β γ : Type} (key : γ → GoStr) (val : γ → β) :
    ∀ (rs : List γ) (m : List (GoStr × β)) (e : GoStr × β),
    e ∈ rs.foldl (fun m p => mput m (key p) (val p)) m →
    e ∈ m ∨ ∃ r ∈ rs, e = (key r, val r) := by
  intro rs
  induction rs with
  | nil =>
    intro m e he
    exact Or.inl he
  | cons x xs ih =>
    intro m e he
    simp only [List.foldl_cons] at he
    rcases ih _ e he with h1 | ⟨r, hr, h2⟩
    · rcases mem_mput_weak h1 with h2 | h2
      · right
        exact ⟨x, by simp, h2⟩
      · left
        exact h2
    · right
      exact ⟨r, by simp [hr], h2⟩

theorem keysNodup_foldl_mput {β γ : Type} (key : γ → GoStr) (val : γ → β) :
    ∀ (rs : List γ) (m : List (GoStr × β)), (m.map Prod.fst).Nodup →
    ((rs.foldl (fun m p => mput m (key p) (val p)) m).map Prod.fst).Nodup := by
  intro rs
  induction rs with
  | nil =>
    intro m h
    exact h
  | cons x xs ih =>
    intro m h
    simp only [List.foldl_cons]
    exact ih _ (keysNodup_mput _ _ _ h)

/-! Preservation of the index invariant by every mutating operation. -/

theorem indexInv_empty : IndexInv emptyCatalog := by
  refine ⟨?_, ?_, ?_, ?_⟩ <;> simp [emptyCatalog]

theorem indexInv_add (c : YAMLCatalog) (fs : List GoStr) (p : Project)
    (h : IndexInv c) : IndexInv (c.Add fs p).2 := by
  cases hv : p.ValidateAndNormalize fs with
  | error e =>
    have hstep : c.Add fs p = (some e, c) := by
      unfold YAMLCatalog.Add
      rw [hv]
    rw [hstep]
    exact h
  | ok p' =>
    rw [Add_ok_step c fs hv]
    by_cases hp : (mfind c.byPath p'.Path).isSome
    · rw [if_pos hp]
      exact h
    · rw [if_neg hp]
      have hfresh : mfind c.byPath p'.Path = none := by
        cases hfp : mfind c.byPath p'.Path
        · rfl
        · rw [hfp] at hp
          exact absurd rfl hp
      refine ⟨?_, ?_, ?_, ?_⟩
      · intro e he
        rcases (mem_mput_iff c.projects p'.ID p' e h.idKeysNodup).mp he with h1 | ⟨hmem, -⟩
        · rw [h1]
        · exact h.keyed e hmem
      · intro e he
        rcases (mem_mput_iff c.projects p'.ID p' e h.idKeysNodup).mp he with h1 | ⟨hmem, -⟩
        · rw [h1]
          exact mfind_mput_self _ _ _
        · have hpne : e.2.Path ≠ p'.Path := by
            intro hee
            have hpi := h.pathIdx e hmem
            rw [hee, hfresh] at hpi
            exact Option.noConfusion hpi
          rw [mfind_mput_ne _ _ _ _ (fun hh => hpne hh.symm)]
          exact h.pathIdx e hmem
      · exact keysNodup_mput _ _ _ h.idKeysNodup
      · exact keysNodup_mput _ _ _ h.pathKeysNodup

/-- Reduced form of `Update` once validation has succeeded. -/
theorem Update_ok_step (c : YAMLCatalog) (fs : List GoStr) {p p' : Project}
    (hv : p.ValidateAndNormalize fs = .ok p') :
    c.Update fs p =
      (match mfind c.projects p'.ID with
      | none => (some CatalogErr.notFound, c)
      | some existing =>
        if existing.Path = p'.Path then
          (none, { c with projects := mput c.projects p'.ID p' })
        else
          match mfind c.byPath p'.Path with
          | some existingID =>
            if existingID = p'.ID then
              (none, { c with byPath := mput (mdel c.byPath existing.Path) p'.Path p'.ID,
                              projects := mput c.projects p'.ID p' })
            else
              (some .alreadyExists, c)
          | none =>
            (none, { c with byPath := mput (mdel c.byPath existing.Path) p'.Path p'.ID,
                            projects := mput c.projects p'.ID p' })) := by
  unfold YAMLCatalog.Update
  rw [hv]

theorem indexInv_update (c : YAMLCatalog) (fs : List GoStr) (p : Project)
    (h : IndexInv c) : IndexInv (c.Update fs p).2 := by
  cases hv : p.ValidateAndNormalize fs with
  | error e =>
    have hstep : c.Update fs p = (some e, c) := by
      unfold YAMLCatalog.Update
      rw [hv]
    rw [hstep]
    exact h
  | ok p' =>
    rw [Update_ok_step c fs hv]
    cases hex : mfind c.projects p'.ID with
    | none => exact h
    | some existing =>
      have hExMem : (p'.ID, existing) ∈ c.projects := mfind_mem hex
      have hPe : mfind c.byPath existing.Path = some p'.ID := h.pathIdx _ hExMem
      simp only
      by_cases hpeq : existing.Path = p'.Path
      · rw [if_pos hpeq]
        refine ⟨?_, ?_, ?_, ?_⟩
        · intro e he
          rcases (mem_mput_iff c.projects p'.ID p' e h.idKeysNodup).mp he with h1 | ⟨hmem, -⟩
          · rw [h1]
          · exact h.keyed e hmem
        · intro e he
          rcases (mem_mput_iff c.projects p'.ID p' e h.idKeysNodup).mp he with h1 | ⟨hmem, -⟩
          · rw [h1]
            show mfind c.byPath p'.Path = some p'.ID
            rw [← hpeq]
            exact hPe
          · exact h.pathIdx e hmem
        · exact keysNodup_mput _ _ _ h.idKeysNodup
        · exact h.pathKeysNodup
      · rw [if_neg hpeq]
        have hmain : (mfind c.byPath p'.Path = none ∨ mfind c.byPath p'.Path = some p'.ID) →
            IndexInv { c with byPath := mput (mdel c.byPath existing.Path) p'.Path p'.ID,
                              projects := mput c.projects p'.ID p' } := by
          intro hbpOK
          refine ⟨?_, ?_, ?_, ?_⟩
          · intro e he
            rcases (mem_mput_iff c.projects p'.ID p' e h.idKeysNodup).mp he with h1 | ⟨hmem, -⟩
            · rw [h1]
            · exact h.keyed e hmem
          · intro e he
            rcases (mem_mput_iff c.projects p'.ID p' e h.idKeysNodup).mp he with h1 | ⟨hmem, hne⟩
            · rw [h1]
              exact mfind_mput_self _ _ _
            · have hne1 : e.2.Path ≠ existing.Path := by
                intro hh
                have hpi := h.pathIdx e hmem
                rw [hh, hPe] at hpi
                injection hpi with hx
                exact hne hx.symm
              have hne2 : e.2.Path ≠ p'.Path := by
                intro hh
                have hpi := h.pathIdx e hmem
                rw [hh] at hpi
                rcases hbpOK with hb | hb
                · rw [hb] at hpi
                  exact Option.noConfusion hpi
                · rw [hb] at hpi
                  injection hpi with hx
                  exact hne hx.symm
              show mfind (mput (mdel c.byPath existing.Path) p'.Path p'.ID) e.2.Path = some e.1
              rw [mfind_mput_ne _ _ _ _ (fun hh => hne2 hh.symm),
                mfind_mdel_ne _ _ _ (fun hh => hne1 hh.symm)]
              exact h.pathIdx e hmem
          · exact keysNodup_mput _ _ _ h.idKeysNodup
          · exact keysNodup_mput _ _ _ (keysNodup_mdel _ _ h.pathKeysNodup)
        cases hbp : mfind c.byPath p'.Path with
        | none => exact hmain (Or.inl hbp)
        | some existingID =>
          simp only
          by_cases heq : existingID = p'.ID
          · rw [if_pos heq]
            exact hmain (Or.inr (by rw [hbp, heq]))
          · rw [if_neg heq]
            exact h

theorem indexInv_remove (c : YAMLCatalog) (id : GoStr) (h : IndexInv c) :
    IndexInv (c.Remove id).2 := by
  cases hex : mfind c.projects id with
  | none =>
    rw [Remove_missing_step c hex]
    exact h
  | some p =>
    rw [Remove_found_step c hex]
    have hPMem : (id, p) ∈ c.projects := mfind_mem hex
    have hPp : mfind c.byPath p.Path = some id := h.pathIdx _ hPMem
    refine ⟨?_, ?_, ?_, ?_⟩
    · intro e he
      exact h.keyed e (mem_mdel_subset he)
    · intro e he
      have hmem := mem_mdel_subset he
      have hne : e.1 ≠ id := mem_mdel_fst_ne h.idKeysNodup he
      have hpne : e.2.Path ≠ p.Path := by
        intro hh
        have hpi := h.pathIdx e hmem
        rw [hh, hPp] at hpi
        injection hpi with hx
        exact hne hx.symm
      show mfind (mdel c.byPath p.Path) e.2.Path = some e.1
      rw [mfind_mdel_ne _ _ _ (fun hh => hpne hh.symm)]
      exact h.pathIdx e hmem
    · exact keysNodup_mdel _ _ h.idKeysNodup
    · exact keysNodup_mdel _ _ h.pathKeysNodup

theorem indexInv_load (c : YAMLCatalog) (f : CatalogFile)
    (hpaths : f.Projects.Pairwise (fun a b => a.Path ≠ b.Path)) :
    IndexInv (c.Load (.parsed f)).2 := by
  refine ⟨?_, ?_, ?_, ?_⟩
  · intro e he
    rcases mem_foldl_mput Project.ID (fun r => r) f.Projects [] e he with h1 | ⟨r, -, h2⟩
    · simp at h1
    · rw [h2]
  · intro e he
    rcases mem_foldl_mput Project.ID (fun r => r) f.Projects [] e he with h1 | ⟨r, hr, h2⟩
    · simp at h1
    · rw [h2]
      exact mfind_foldl_mput Project.Path Project.ID f.Projects [] r hr hpaths
  · exact keysNodup_foldl_mput _ _ _ _ (by simp)
  · exact keysNodup_foldl_mput _ _ _ _ (by simp)

theorem indexInv_reachableD {c : YAMLCatalog} (h : ReachableD c) : IndexInv c := by
  induction h with
  | init => exact indexInv_empty
  | add fs p hprev ih => exact indexInv_add _ fs p ih
  | update fs p hprev ih => exact indexInv_update _ fs p ih
  | remove id hprev ih => exact indexInv_remove _ id ih
  | loadMissing hprev ih => exact ih
  | loadParsed f hprev hp ih => exact indexInv_load _ f hp

/-- C1 (amended): after every successful add, update or remove, and after a
load of any successfully parsed file whose records carry pairwise-distinct
paths, no two records returned by `list()` share a path — for every state
reachable through those operations. -/
theorem list_paths_distinct (c : YAMLCatalog) (h : ReachableD c) :
    c.ListProjects.Pairwise (fun a b => a.Path ≠ b.Path) := by
  have hinv := indexInv_reachableD h
  unfold YAMLCatalog.ListProjects
  rw [List.pairwise_map]
  have hkeys : c.projects.Pairwise (fun e1 e2 => e1.1 ≠ e2.1) := by
    have hnd := hinv.idKeysNodup
    rw [List.Nodup, List.pairwise_map] at hnd
    exact hnd
  refine hkeys.imp_of_mem ?_
  intro e1 e2 h1 h2 hne hpp
  have hp1 := hinv.pathIdx e1 h1
  have hp2 := hinv.pathIdx e2 h2
  rw [hpp, hp2] at hp1
  injection hp1 with hx
  exact hne hx.symm

/-- C1 witness: the amended statement applied to the state reached by adding
`recA` to a fresh engine. -/
theorem list_paths_distinct_witness :
    ((emptyCatalog.Add fsW recA).2.ListProjects).Pairwise
      (fun a b => a.Path ≠ b.Path) :=
  list_paths_distinct _ (ReachableD.add fsW recA ReachableD.init)

/-- C1, counterexample: loading a successfully parsed file holding two records
with the same path is a reachable engine operation, yet afterwards `list()`
returns two records sharing the path `/a`. -/
theorem load_duplicate_path_counterexample :
    Reachable ((emptyCatalog.Load
      (.parsed ⟨1, [recA, { recB with Path := gs "/a" }]⟩)).2) ∧
    ¬ ((emptyCatalog.Load
      (.parsed ⟨1, [recA, { recB with Path := gs "/a" }]⟩)).2.ListProjects.Pairwise
        (fun a b => a.Path ≠ b.Path)) := by
  constructor
  · exact Reachable.load _ Reachable.init
  · decide

/-! The persistence round-trip. -/

theorem addSeq_spec (fs : List GoStr) :
    ∀ (rs : List Project) (c : YAMLCatalog),
    (∀ r ∈ rs, r.ValidateAndNormalize fs = .ok r) →
    (∀ r ∈ rs, mfind c.byPath r.Path = none) →
    (∀ r ∈ rs, mfind c.projects r.ID = none) →
    rs.Pairwise (fun a b => a.Path ≠ b.Path) →
    rs.Pairwise (fun a b => a.ID ≠ b.ID) →
    (addSeq c fs rs).projects = c.projects ++ rs.map (fun r => (r.ID, r)) := by
  intro rs
  induction rs with
  | nil =>
    intro c _ _ _ _ _
    simp [addSeq]
  | cons x t ih =>
    intro c hval hpath hid hpw hiw
    rw [List.pairwise_cons] at hpw hiw
    obtain ⟨hpx, hpt⟩ := hpw
    obtain ⟨hix, hit⟩ := hiw
    have hv := hval x (by simp)
    unfold addSeq
    simp only [List.foldl_cons]
    rw [Add_ok_step c fs hv]
    rw [if_neg (by rw [hpath x (by simp)]; simp)]
    have hstep : (none (α := CatalogErr),
        { c with projects := mput c.projects x.ID x,
                 byPath := mput c.byPath x.Path x.ID }).2 =
        { c with projects := mput c.projects x.ID x,
                 byPath := mput c.byPath x.Path x.ID } := rfl
    rw [hstep]
    have ih2 := ih { c with projects := mput c.projects x.ID x,
                            byPath := mput c.byPath x.Path x.ID }
      (fun r hr => hval r (by simp [hr]))
      (fun r hr => by
        show mfind (mput c.byPath x.Path x.ID) r.Path = none
        rw [mfind_mput_ne _ _ _ _ (hpx r hr)]
        exact hpath r (by simp [hr]))
      (fun r hr => by
        show mfind (mput c.projects x.ID x) r.ID = none
        rw [mfind_mput_ne _ _ _ _ (hix r hr)]
        exact hid r (by simp [hr]))
      hpt hit
    show (addSeq _ fs t).projects = _
    rw [ih2]
    show mput c.projects x.ID x ++ t.map (fun r => (r.ID, r)) = _
    rw [mput_of_absent _ _ _ (hid x (by simp))]
    simp

theorem sl_yamlOmitEmptySlice {α : Type} (o : Option (List α)) :
    sl (yamlOmitEmptySlice o) = sl o := by
  cases o with
  | none => rfl
  | some l =>
    cases l with
    | nil => rfl
    | cons x xs => rfl

theorem projEquateEmpty_yamlRoundTrip (p : Project) :
    projEquateEmpty (yamlRoundTrip p) p :=
  ⟨rfl, rfl, rfl, sl_yamlOmitEmptySlice p.Types, sl_yamlOmitEmptySlice p.Tags,
    rfl, rfl, rfl, rfl, rfl, rfl⟩

/-- C9, counterexample: `recA` is valid and is added successfully, but its
`Types` and `Tags` are empty non-nil slices, which the `omitempty` yaml tags
drop on save; after the real save/load round trip `get(id)` returns the
record with both containers nil, not a record equal to the original in every
field. -/
theorem save_load_counterexample :
    (recA.ValidateAndNormalize fsW = .ok recA) ∧
    ((emptyCatalog.Add fsW recA).1 = none) ∧
    ((emptyCatalog.Load (.parsed (yamlReload
        ((addSeq emptyCatalog fsW [recA]).Save)))).2.Get recA.ID =
      .ok { recA with Types := none, Tags := none }) ∧
    ((emptyCatalog.Load (.parsed (yamlReload
        ((addSeq emptyCatalog fsW [recA]).Save)))).2.Get recA.ID ≠ .ok recA) := by
  refine ⟨by decide, by decide, by decide, by decide⟩

/-- C9 (amended): after adding records that pass validation unchanged and
carry pairwise-distinct ids and paths, saving, and loading the written file
into a fresh engine, `get(id)` returns, for every original record, exactly its
yaml round trip: a record equal to the original in every field up to
identifying empty and nil `types`/`tags` containers (which the `omitempty`
yaml tags conflate), and exactly equal in all other fields. -/
theorem save_load_roundtrip (fs : List GoStr) (rs : List Project)
    (hval : ∀ r ∈ rs, r.ValidateAndNormalize fs = .ok r)
    (hids : rs.Pairwise (fun a b => a.ID ≠ b.ID))
    (hpaths : rs.Pairwise (fun a b => a.Path ≠ b.Path)) :
    ∀ r ∈ rs,
      (emptyCatalog.Load (.parsed (yamlReload
          ((addSeq emptyCatalog fs rs).Save)))).2.Get r.ID =
        .ok (yamlRoundTrip r) ∧
      projEquateEmpty (yamlRoundTrip r) r := by
  intro r hr
  have hproj : (addSeq emptyCatalog fs rs).projects = rs.map (fun r => (r.ID, r)) := by
    have hmain := addSeq_spec fs rs emptyCatalog hval
      (fun r _ => rfl) (fun r _ => rfl) hpaths hids
    simpa [emptyCatalog] using hmain
  have hlist : (addSeq emptyCatalog fs rs).ListProjects = rs := by
    unfold YAMLCatalog.ListProjects
    rw [hproj, List.map_map,
      show (Prod.snd ∘ fun (r : Project) => (r.ID, r)) = id from funext fun _ => rfl,
      List.map_id]
  have hsaved : ((addSeq emptyCatalog fs rs).Save).Projects =
      sortSliceStable (fun a b => ltStr a.Name b.Name) rs := by
    unfold YAMLCatalog.Save
    rw [hlist]
  have hsperm : ((addSeq emptyCatalog fs rs).Save).Projects.Perm rs := by
    rw [hsaved]
    exact sortSliceStable_perm _ _
  have hsids : ((addSeq emptyCatalog fs rs).Save).Projects.Pairwise
      (fun a b => a.ID ≠ b.ID) :=
    (hsperm.pairwise_iff (fun hab hba => hab hba.symm)).mpr hids
  have hrmem : r ∈ ((addSeq emptyCatalog fs rs).Save).Projects := hsperm.mem_iff.mpr hr
  refine ⟨?_, projEquateEmpty_yamlRoundTrip r⟩
  have hmmem : yamlRoundTrip r ∈
      (yamlReload ((addSeq emptyCatalog fs rs).Save)).Projects := by
    show yamlRoundTrip r ∈ ((addSeq emptyCatalog fs rs).Save).Projects.map yamlRoundTrip
    exact List.mem_map_of_mem _ hrmem
  have hmids : (yamlReload ((addSeq emptyCatalog fs rs).Save)).Projects.Pairwise
      (fun a b => a.ID ≠ b.ID) := by
    show (((addSeq emptyCatalog fs rs).Save).Projects.map yamlRoundTrip).Pairwise _
    rw [List.pairwise_map]
    exact hsids.imp (fun h => h)
  have hfind := mfind_foldl_mput Project.ID (fun x => x)
    (yamlReload ((addSeq emptyCatalog fs rs).Save)).Projects [] (yamlRoundTrip r)
    hmmem hmids
  rw [show (yamlRoundTrip r).ID = r.ID from rfl] at hfind
  unfold YAMLCatalog.Load YAMLCatalog.Get
  simp only
  rw [hfind]

/-- C9 witness: the amended round trip applied to `[recA, recB]`, recovering
`recA`'s yaml round trip by id from the freshly loaded engine. -/
theorem save_load_roundtrip_witness :
    ((emptyCatalog.Load (.parsed (yamlReload
        ((addSeq emptyCatalog fsW [recA, recB]).Save)))).2.Get recA.ID =
      .ok (yamlRoundTrip recA)) ∧
    projEquateEmpty (yamlRoundTrip recA) recA :=
  save_load_roundtrip fsW [recA, recB] (by decide) (by decide) (by decide)
    recA (by decide)
